import Mathlib

/-!
ListSet.c — a linked "object set"

A shallow embedding of `src/chapter1/ListSet.c` and a verification of its
contract.

Memory model

The C program works on three kinds of heap records (`struct Set`,
`struct Object`, `struct Element`) through untyped pointers.  The embedding
uses one address space: a memory maps an address to the record that lives
there, if any.  Address `0` is the null pointer.  Objects are never
dereferenced by the set code: only their addresses are stored and compared.

* `unsigned` is 32 bits wide: stores to `count` are taken modulo `2 ^ 32`.
* `int` is 32 bits wide: incrementing the loop counter of `add` past
  `INT_MAX` is undefined behaviour.
* Dereferencing an address that holds no record of the expected kind is
  undefined behaviour.
* `calloc` is outside of the program: the address it answers is a parameter
  of `new` (and so of `add`); `0` is allocation failure.
* The `while` loops of `find`, `find_element` and `find_prior_element` have no
  bound of their own (they spin on a cyclic chain), so they take fuel; the
  outcome `Fault.fuel` means that the fuel did not suffice and is not a
  behaviour of the program.
-/

namespace ListSet

/-- An address; `0` is the null pointer. -/
abbrev Ptr := Nat

/-- The tag enumeration `enum types`. -/
inductive types where
  | none | uinteger8 | uinteger16 | uinteger32
  | sinteger8 | sinteger16 | sinteger32
  | single_floating | single_double | character
  deriving DecidableEq, Repr

/-- The numeric value of an enumerant of `enum types`. -/
def types.toNat : types → Nat
  | .none => 0 | .uinteger8 => 1 | .uinteger16 => 2 | .uinteger32 => 3
  | .sinteger8 => 4 | .sinteger16 => 5 | .sinteger32 => 6
  | .single_floating => 7 | .single_double => 8 | .character => 9

/-- The record `struct Set { unsigned count; struct Element * head; }`. -/
structure Set where
  count : Nat
  head : Ptr
  deriving DecidableEq, Repr

/-- The record `struct Object { enum types type; void * data; }`. -/
structure Object where
  type : types
  data : Ptr
  deriving DecidableEq, Repr

/-- The record `struct Element { struct Object * object; struct Element * next; }`. -/
structure Element where
  object : Ptr
  next : Ptr
  deriving DecidableEq, Repr

/-- What lives at an address. -/
inductive Cell where
  | set (s : Set)
  | object (o : Object)
  | element (e : Element)
  deriving DecidableEq, Repr

/-- The heap: the record at each address, `none` where nothing is allocated. -/
abbrev Mem := Ptr → Option Cell

/-- The heap with the content of address `p` replaced. -/
def Mem.write (m : Mem) (p : Ptr) (c : Option Cell) : Mem :=
  fun q => if q = p then c else m q

/-- How a call can end other than by returning. -/
inductive Fault where
  /-- An `assert` failed: the process aborts. -/
  | assertion
  /-- Undefined behaviour: an invalid dereference, an invalid `free`,
  or overflow of an `int`. -/
  | undefined
  /-- The fuel of the model ran out (not a behaviour of the program). -/
  | fuel
  deriving DecidableEq, Repr

/-- The modulus of `unsigned` arithmetic. -/
def UINT_MOD : Nat := 2 ^ 32

/-- The largest `int`. -/
def INT_MAX : Nat := 2 ^ 31 - 1

/-- The type descriptors `Set`, `Object`, `Element` handed to `new`. -/
inductive Descriptor where
  | Set | Object | Element
  deriving DecidableEq, Repr

/-- The zero-filled record of a descriptor (what `calloc` hands out). -/
def Descriptor.zero : Descriptor → Cell
  | .Set => .set ⟨0, 0⟩
  | .Object => .object ⟨.none, 0⟩
  | .Element => .element ⟨0, 0⟩

/-- Load of a `struct Set` through a pointer. -/
def loadSet (m : Mem) (p : Ptr) : Except Fault Set :=
  match m p with
  | some (.set s) => .ok s
  | _ => .error .undefined

/-- Load of a `struct Element` through a pointer. -/
def loadElement (m : Mem) (p : Ptr) : Except Fault Element :=
  match m p with
  | some (.element e) => .ok e
  | _ => .error .undefined

/-- Store `p->next = v`. -/
def storeNext (m : Mem) (p v : Ptr) : Except Fault Mem :=
  match m p with
  | some (.element e) => .ok (m.write p (some (.element { e with next := v })))
  | _ => .error .undefined

/-- Store `p->object = v`. -/
def storeObject (m : Mem) (p v : Ptr) : Except Fault Mem :=
  match m p with
  | some (.element e) => .ok (m.write p (some (.element { e with object := v })))
  | _ => .error .undefined

/-- Store `p->head = v`. -/
def storeHead (m : Mem) (p v : Ptr) : Except Fault Mem :=
  match m p with
  | some (.set s) => .ok (m.write p (some (.set { s with head := v })))
  | _ => .error .undefined

/-- Store `p->count = v`. -/
def storeCount (m : Mem) (p : Ptr) (v : Nat) : Except Fault Mem :=
  match m p with
  | some (.set s) => .ok (m.write p (some (.set { s with count := v })))
  | _ => .error .undefined

/-- The statement `set->count++` on an `unsigned`. -/
def incrCount (m : Mem) (p : Ptr) : Except Fault Mem :=
  match loadSet m p with
  | .error f => .error f
  | .ok s => storeCount m p ((s.count + 1) % UINT_MOD)

/-- The statement `set->count--` on an `unsigned`. -/
def decrCount (m : Mem) (p : Ptr) : Except Fault Mem :=
  match loadSet m p with
  | .error f => .error f
  | .ok s => storeCount m p ((s.count + UINT_MOD - 1) % UINT_MOD)

/-- The constructor `new(type)`: `calloc(1, size)`, here answering `p`, then `assert(p)`. -/
def new (m : Mem) (p : Ptr) (type : Descriptor) : Except Fault (Mem × Ptr) :=
  if p = 0 then .error .assertion
  else .ok (m.write p (some type.zero), p)

/-- The destructor `delete(item)`, that is `free(item)`. -/
def delete (m : Mem) (item : Ptr) : Except Fault Mem :=
  if item = 0 then .ok m
  else match m item with
    | none => .error .undefined
    | some _ => .ok (m.write item none)

/-- The `for` loop of `add`: from `tmp_elem`, with the counter at `cur_elem`,
follow `next` while `cur_elem < count`. -/
def add_loop (m : Mem) (count : Nat) : Nat → Nat → Ptr → Except Fault Ptr
  | 0, _, _ => .error .fuel
  | fuel + 1, cur_elem, tmp_elem =>
    if cur_elem < count then
      match loadElement m tmp_elem with
      | .error f => .error f
      | .ok e =>
        if e.next = 0 then .error .assertion
        else if cur_elem = INT_MAX then .error .undefined
        else add_loop m count fuel (cur_elem + 1) e.next
    else .ok tmp_elem

/-- The branch of `add` for `set->count > 0`. -/
def add_tail (m : Mem) (p : Ptr) (_set object : Ptr) (set : Set) :
    Except Fault (Mem × Ptr) :=
  match add_loop m set.count set.count 1 set.head with
  | .error f => .error f
  | .ok tmp_elem =>
    match loadElement m tmp_elem with
    | .error f => .error f
    | .ok e =>
      if e.next ≠ 0 then .error .assertion
      else
        match new m p .Element with
        | .error f => .error f
        | .ok (m1, q) =>
          match storeNext m1 tmp_elem q with
          | .error f => .error f
          | .ok m2 =>
            match loadElement m2 tmp_elem with
            | .error f => .error f
            | .ok e2 =>
              if e2.next = 0 then .error .assertion
              else
                match storeObject m2 e2.next object with
                | .error f => .error f
                | .ok m3 =>
                  match incrCount m3 _set with
                  | .error f => .error f
                  | .ok m4 => .ok (m4, object)

/-- The branch of `add` for `set->count == 0`. -/
def add_head (m : Mem) (p : Ptr) (_set object : Ptr) : Except Fault (Mem × Ptr) :=
  match new m p .Element with
  | .error f => .error f
  | .ok (m1, q) =>
    match storeHead m1 _set q with
    | .error f => .error f
    | .ok m2 =>
      match loadSet m2 _set with
      | .error f => .error f
      | .ok s2 =>
        if s2.head = 0 then .error .assertion
        else
          match storeObject m2 s2.head object with
          | .error f => .error f
          | .ok m3 =>
            match incrCount m3 _set with
            | .error f => .error f
            | .ok m4 => .ok (m4, object)

/-- The function `add(_set, _object)`; `p` is what `calloc` answers. -/
def add (m : Mem) (p : Ptr) (_set _object : Ptr) : Except Fault (Mem × Ptr) :=
  if _set = 0 then .error .assertion
  else if _object = 0 then .error .assertion
  else
    match loadSet m _set with
    | .error f => .error f
    | .ok set =>
      if set.count > 0 then add_tail m p _set _object set
      else add_head m p _set _object

/-- The `while` loop shared by `find` and `find_element`: the value of
`tmp_elem` when the loop is left. -/
def find_loop (m : Mem) (object : Ptr) : Nat → Ptr → Except Fault Ptr
  | 0, _ => .error .fuel
  | fuel + 1, tmp_elem =>
    if tmp_elem = 0 then .ok tmp_elem
    else
      match loadElement m tmp_elem with
      | .error f => .error f
      | .ok e =>
        if e.object ≠ object then find_loop m object fuel e.next
        else .ok tmp_elem

/-- The function `find(_set, _object)`. -/
def find (fuel : Nat) (m : Mem) (_set _object : Ptr) : Except Fault Ptr :=
  if _set = 0 then .error .assertion
  else if _object = 0 then .error .assertion
  else
    match loadSet m _set with
    | .error f => .error f
    | .ok set =>
      match find_loop m _object fuel set.head with
      | .error f => .error f
      | .ok tmp_elem =>
        if tmp_elem = 0 then .ok 0
        else
          match loadElement m tmp_elem with
          | .error f => .error f
          | .ok e =>
            if e.object = 0 then .error .assertion
            else .ok e.object

/-- The function `find_element(_set, _object)`. -/
def find_element (fuel : Nat) (m : Mem) (_set _object : Ptr) : Except Fault Ptr :=
  if _set = 0 then .error .assertion
  else if _object = 0 then .error .assertion
  else
    match loadSet m _set with
    | .error f => .error f
    | .ok set =>
      match find_loop m _object fuel set.head with
      | .error f => .error f
      | .ok tmp_elem =>
        if tmp_elem = 0 then .ok 0
        else
          match loadElement m tmp_elem with
          | .error f => .error f
          | .ok e =>
            if e.object ≠ _object then .error .assertion
            else .ok tmp_elem

/-- The `while` loop of `find_prior_element`: the values of `tmp_elem_last`
and `tmp_elem` when the loop is left. -/
def find_prior_loop (m : Mem) (object : Ptr) : Nat → Ptr → Ptr → Except Fault (Ptr × Ptr)
  | 0, _, _ => .error .fuel
  | fuel + 1, tmp_elem_last, tmp_elem =>
    if tmp_elem = 0 then .ok (tmp_elem_last, tmp_elem)
    else
      match loadElement m tmp_elem with
      | .error f => .error f
      | .ok e =>
        if e.object ≠ object then find_prior_loop m object fuel tmp_elem e.next
        else .ok (tmp_elem_last, tmp_elem)

/-- The function `find_prior_element(_set, _object)`. -/
def find_prior_element (fuel : Nat) (m : Mem) (_set _object : Ptr) : Except Fault Ptr :=
  if _set = 0 then .error .assertion
  else if _object = 0 then .error .assertion
  else
    match loadSet m _set with
    | .error f => .error f
    | .ok set =>
      match find_prior_loop m _object fuel 0 set.head with
      | .error f => .error f
      | .ok (tmp_elem_last, tmp_elem) =>
        if tmp_elem = 0 then .ok 0
        else .ok tmp_elem_last

/-- The function `contains(_set, _object)`: `find(_set, _object) != 0` as an `int`. -/
def contains (fuel : Nat) (m : Mem) (_set _object : Ptr) : Except Fault Int :=
  match find fuel m _set _object with
  | .error f => .error f
  | .ok r => .ok (if r ≠ 0 then 1 else 0)

/-- The unlinking of `element` in `drop`, through `prior_element` or the head. -/
def drop_unlink (m : Mem) (set prior_element element : Ptr) : Except Fault Mem :=
  match loadElement m element with
  | .error f => .error f
  | .ok e =>
    if prior_element ≠ 0 then
      match storeNext m prior_element e.next with
      | .error f => .error f
      | .ok m1 => delete m1 element
    else
      match storeHead m set e.next with
      | .error f => .error f
      | .ok m1 => delete m1 element

/-- The function `drop(_set, _object)`. -/
def drop (fuel : Nat) (m : Mem) (_set _object : Ptr) : Except Fault (Mem × Ptr) :=
  match find fuel m _set _object with
  | .error f => .error f
  | .ok object =>
    if object ≠ 0 then
      match find_prior_element fuel m _set _object with
      | .error f => .error f
      | .ok prior_element =>
        match find_element fuel m _set object with
        | .error f => .error f
        | .ok element =>
          match drop_unlink m _set prior_element element with
          | .error f => .error f
          | .ok m2 =>
            match decrCount m2 _set with
            | .error f => .error f
            | .ok m3 => .ok (m3, object)
    else .ok (m, object)

/-- The function `count(_set)`. -/
def count (m : Mem) (_set : Ptr) : Except Fault Nat :=
  if _set = 0 then .error .assertion
  else
    match loadSet m _set with
    | .error f => .error f
    | .ok set => .ok set.count

/-- The function `differ(a, b)`: `a != b` as an `int`. -/
def differ (a b : Ptr) : Int :=
  if a ≠ b then 1 else 0

/-! ## The chain of a set -/

/-- The address of the first Element of a listing, `0` for the empty one. -/
def headOf : List (Ptr × Ptr) → Ptr
  | [] => 0
  | (a, _) :: _ => a

/-- The address of the last Element of a listing, `0` for the empty one. -/
def lastOf : List (Ptr × Ptr) → Ptr
  | [] => 0
  | [(a, _)] => a
  | _ :: x :: l => lastOf (x :: l)

/-- `Chain m p l`: following `next` links in `m` from `p` to the terminal
null link visits exactly the Elements listed in `l`, head to tail, each as
`(address, stored object reference)`. -/
def Chain (m : Mem) : Ptr → List (Ptr × Ptr) → Prop
  | p, [] => p = 0
  | p, (a, o) :: l =>
    p = a ∧ a ≠ 0 ∧ m a = some (.element ⟨o, headOf l⟩) ∧ Chain m (headOf l) l

instance Chain.decide (m : Mem) : (p : Ptr) → (l : List (Ptr × Ptr)) → Decidable (Chain m p l)
  | p, [] => inferInstanceAs (Decidable (p = 0))
  | p, (a, o) :: l =>
    have := Chain.decide m (headOf l) l
    inferInstanceAs (Decidable
      (p = a ∧ a ≠ 0 ∧ m a = some (.element ⟨o, headOf l⟩) ∧ Chain m (headOf l) l))

/-- The addresses of the Elements of a listing. -/
def addrs (l : List (Ptr × Ptr)) : List Ptr := l.map Prod.fst

/-- The stored object references of a listing, head to tail. -/
def objs (l : List (Ptr × Ptr)) : List Ptr := l.map Prod.snd

/-- The count/chain invariant of the set at address `set`, with `l` the
listing of its chain: `set` is a live `struct Set`, its `count` is the number
of Elements reachable from its `head`, and `count` is a value of `unsigned`. -/
def Inv (m : Mem) (set : Ptr) (l : List (Ptr × Ptr)) : Prop :=
  set ≠ 0 ∧ ∃ s, m set = some (.set s) ∧ s.count = l.length ∧
    s.count < UINT_MOD ∧ Chain m s.head l

/-- The address of the first Element of a listing that stores `v`, `0` if none does. -/
def firstAddr (v : Ptr) : List (Ptr × Ptr) → Ptr
  | [] => 0
  | (a, o) :: l => if o = v then a else firstAddr v l

/-- The address of the Element before the first one that stores `v`;
`last` if that one is the first of the listing or there is none. -/
def priorAddr (v : Ptr) : Ptr → List (Ptr × Ptr) → Ptr
  | last, [] => last
  | last, (a, o) :: l => if o = v then last else priorAddr v a l

/-- The listing without its first Element that stores `v`. -/
def eraseFirst (v : Ptr) : List (Ptr × Ptr) → List (Ptr × Ptr)
  | [] => []
  | (a, o) :: l => if o = v then l else (a, o) :: eraseFirst v l

/-- The memory that holds only an empty set, at address `set`. -/
def emptyMem (set : Ptr) : Mem :=
  fun q => if q = set then some (.set ⟨0, 0⟩) else none

/-- The sample memory: the set at address `1` holding, at addresses `2`, `3`
and `4`, Elements that store `7`, `8` and `7` again. -/
def sampleMem : Mem := fun q =>
  if q = 1 then some (.set ⟨3, 2⟩)
  else if q = 2 then some (.element ⟨7, 3⟩)
  else if q = 3 then some (.element ⟨8, 4⟩)
  else if q = 4 then some (.element ⟨7, 0⟩)
  else none

/-- The listing of the chain of `sampleMem`. -/
def sampleList : List (Ptr × Ptr) := [(2, 7), (3, 8), (4, 7)]

/-- The memory with the set at address `1` holding `n` Elements, at addresses
`2` to `n + 1` in chain order, each storing the reference `7`. -/
def fullMem (n : Nat) : Mem := fun q =>
  if q = 1 then some (.set ⟨n, if n = 0 then 0 else 2⟩)
  else if 2 ≤ q ∧ q ≤ n + 1 then some (.element ⟨7, if q = n + 1 then 0 else q + 1⟩)
  else none

/-- The Elements at the `k` addresses from `a` on, each storing `7`. -/
def segment (a k : Nat) : List (Ptr × Ptr) := (List.range' a k).map (fun b => (b, 7))

/-- The listing of the chain of `fullMem n`. -/
def fullList (n : Nat) : List (Ptr × Ptr) := segment 2 n

/-- A mutating call on the set: `add(set, v)` during which `calloc` answers
`p`, or `drop(set, v)`. -/
inductive Call where
  | add (p v : Ptr)
  | drop (v : Ptr)
  deriving DecidableEq, Repr

/-- One call on the set at address `set`: the memory afterwards. -/
def step (fuel : Nat) (set : Ptr) (m : Mem) : Call → Except Fault Mem
  | .add p v =>
    match add m p set v with
    | .error f => .error f
    | .ok (m', _) => .ok m'
  | .drop v =>
    match drop fuel m set v with
    | .error f => .error f
    | .ok (m', _) => .ok m'

/-- A sequence of calls on the set at address `set`, each on the memory the
previous one left. -/
def run (fuel : Nat) (set : Ptr) : Mem → List Call → Except Fault Mem
  | m, [] => .ok m
  | m, c :: cs =>
    match step fuel set m c with
    | .error f => .error f
    | .ok m' => run fuel set m' cs

/-- What a call needs of the memory it starts from: its value is non-empty,
and for `add` the allocation succeeds with an address that is not live and
`count` is at most `INT_MAX`. -/
def callOK (m : Mem) (set : Ptr) : Call → Prop
  | .add p v => v ≠ 0 ∧ p ≠ 0 ∧ m p = none ∧ ∃ n, count m set = .ok n ∧ n ≤ INT_MAX
  | .drop v => v ≠ 0

/-- Every call of the sequence satisfies `callOK` on the memory it starts from. -/
def Admissible (fuel : Nat) (set : Ptr) : Mem → List Call → Prop
  | _, [] => True
  | m, c :: cs =>
    callOK m set c ∧ ∀ m', step fuel set m c = .ok m' → Admissible fuel set m' cs

/-- The `add` calls of a list of `(address answered by calloc, value)`. -/
def adds (ops : List (Ptr × Ptr)) : List Call := ops.map (fun x => Call.add x.1 x.2)

/-- The addresses `calloc` answers during a sequence of `add` calls: none is
null or live in `m`, and no two are the same. -/
def FreshOps (m : Mem) (ops : List (Ptr × Ptr)) : Prop :=
  (∀ x ∈ ops, x.1 ≠ 0 ∧ x.2 ≠ 0 ∧ m x.1 = none) ∧ (addrs ops).Nodup

/-- The sample memory with Objects: the set at address `1` holds one Element,
at `2`, that stores the Object at `10`; the Objects at `10` and `11` carry the
same tag and the same data. -/
def objectMem : Mem := fun q =>
  if q = 1 then some (.set ⟨1, 2⟩)
  else if q = 2 then some (.element ⟨10, 0⟩)
  else if q = 10 then some (.object ⟨.uinteger8, 20⟩)
  else if q = 11 then some (.object ⟨.uinteger8, 20⟩)
  else none

/-- The wording of the specification for `contains`: "`find(set, value)`
succeeded", as a truth value. -/
def contains_spec (fuel : Nat) (m : Mem) (_set _object : Ptr) : Except Fault Bool :=
  match find fuel m _set _object with
  | .error f => .error f
  | .ok r => .ok (decide (r ≠ 0))

/-! ## Calls with the memory they leave

The functions once more, in state-passing form: every statement takes the
memory the previous one left and hands on the memory it leaves, so that a call
ends, by return or by abort, with the memory of that moment.  A store hands on
the changed memory, a load the memory it read. -/

/-- A call that returned: the memory it left and its result. -/
def returned {α : Type} : Mem × Except Fault α → Except Fault (Mem × α)
  | (m, .ok r) => .ok (m, r)
  | (_, .error f) => .error f

/-- The branch of `add` for `set->count > 0`, with the memory at its end. -/
def add_tail_at (m : Mem) (p : Ptr) (_set object : Ptr) (set : Set) :
    Mem × Except Fault Ptr :=
  match add_loop m set.count set.count 1 set.head with
  | .error f => (m, .error f)
  | .ok tmp_elem =>
    match loadElement m tmp_elem with
    | .error f => (m, .error f)
    | .ok e =>
      if e.next ≠ 0 then (m, .error .assertion)
      else
        match new m p .Element with
        | .error f => (m, .error f)
        | .ok (m1, q) =>
          match storeNext m1 tmp_elem q with
          | .error f => (m1, .error f)
          | .ok m2 =>
            match loadElement m2 tmp_elem with
            | .error f => (m2, .error f)
            | .ok e2 =>
              if e2.next = 0 then (m2, .error .assertion)
              else
                match storeObject m2 e2.next object with
                | .error f => (m2, .error f)
                | .ok m3 =>
                  match incrCount m3 _set with
                  | .error f => (m3, .error f)
                  | .ok m4 => (m4, .ok object)

/-- The branch of `add` for `set->count == 0`, with the memory at its end. -/
def add_head_at (m : Mem) (p : Ptr) (_set object : Ptr) : Mem × Except Fault Ptr :=
  match new m p .Element with
  | .error f => (m, .error f)
  | .ok (m1, q) =>
    match storeHead m1 _set q with
    | .error f => (m1, .error f)
    | .ok m2 =>
      match loadSet m2 _set with
      | .error f => (m2, .error f)
      | .ok s2 =>
        if s2.head = 0 then (m2, .error .assertion)
        else
          match storeObject m2 s2.head object with
          | .error f => (m2, .error f)
          | .ok m3 =>
            match incrCount m3 _set with
            | .error f => (m3, .error f)
            | .ok m4 => (m4, .ok object)

/-- The function `add(_set, _object)` with the memory at its end; `p` is what
`calloc` answers. -/
def add_at (m : Mem) (p : Ptr) (_set _object : Ptr) : Mem × Except Fault Ptr :=
  if _set = 0 then (m, .error .assertion)
  else if _object = 0 then (m, .error .assertion)
  else
    match loadSet m _set with
    | .error f => (m, .error f)
    | .ok set =>
      if set.count > 0 then add_tail_at m p _set _object set
      else add_head_at m p _set _object

/-- The unlinking of `element` in `drop`, with the memory at its end. -/
def drop_unlink_at (m : Mem) (set prior_element element : Ptr) : Mem × Except Fault Unit :=
  match loadElement m element with
  | .error f => (m, .error f)
  | .ok e =>
    if prior_element ≠ 0 then
      match storeNext m prior_element e.next with
      | .error f => (m, .error f)
      | .ok m1 =>
        match delete m1 element with
        | .error f => (m1, .error f)
        | .ok m2 => (m2, .ok ())
    else
      match storeHead m set e.next with
      | .error f => (m, .error f)
      | .ok m1 =>
        match delete m1 element with
        | .error f => (m1, .error f)
        | .ok m2 => (m2, .ok ())

/-- The function `drop(_set, _object)` with the memory at its end. -/
def drop_at (fuel : Nat) (m : Mem) (_set _object : Ptr) : Mem × Except Fault Ptr :=
  match find fuel m _set _object with
  | .error f => (m, .error f)
  | .ok object =>
    if object ≠ 0 then
      match find_prior_element fuel m _set _object with
      | .error f => (m, .error f)
      | .ok prior_element =>
        match find_element fuel m _set object with
        | .error f => (m, .error f)
        | .ok element =>
          match drop_unlink_at m _set prior_element element with
          | (m1, .error f) => (m1, .error f)
          | (m2, .ok _) =>
            match decrCount m2 _set with
            | .error f => (m2, .error f)
            | .ok m3 => (m3, .ok object)
    else (m, .ok object)

/-- The load of a `struct Set` through a pointer, in state-passing form. -/
def loadSet_at (m : Mem) (p : Ptr) : Mem × Except Fault Set :=
  (m, loadSet m p)

/-- The load of a `struct Element` through a pointer, in state-passing form. -/
def loadElement_at (m : Mem) (p : Ptr) : Mem × Except Fault Element :=
  (m, loadElement m p)

/-- The `while` loop of `find` and `find_element` in state-passing form: each
turn reads `tmp_elem->object` and `tmp_elem->next` in the memory the turn
before left. -/
def find_loop_at (object : Ptr) : Nat → Mem → Ptr → Mem × Except Fault Ptr
  | 0, m, _ => (m, .error .fuel)
  | fuel + 1, m, tmp_elem =>
    if tmp_elem = 0 then (m, .ok tmp_elem)
    else
      match loadElement_at m tmp_elem with
      | (m1, .error f) => (m1, .error f)
      | (m1, .ok e) =>
        if e.object ≠ object then find_loop_at object fuel m1 e.next
        else (m1, .ok tmp_elem)

/-- The function `find(_set, _object)` in state-passing form. -/
def find_at (fuel : Nat) (m : Mem) (_set _object : Ptr) : Mem × Except Fault Ptr :=
  if _set = 0 then (m, .error .assertion)
  else if _object = 0 then (m, .error .assertion)
  else
    match loadSet_at m _set with
    | (m1, .error f) => (m1, .error f)
    | (m1, .ok set) =>
      match find_loop_at _object fuel m1 set.head with
      | (m2, .error f) => (m2, .error f)
      | (m2, .ok tmp_elem) =>
        if tmp_elem = 0 then (m2, .ok 0)
        else
          match loadElement_at m2 tmp_elem with
          | (m3, .error f) => (m3, .error f)
          | (m3, .ok e) =>
            if e.object = 0 then (m3, .error .assertion)
            else (m3, .ok e.object)

/-- The function `find_element(_set, _object)` in state-passing form. -/
def find_element_at (fuel : Nat) (m : Mem) (_set _object : Ptr) : Mem × Except Fault Ptr :=
  if _set = 0 then (m, .error .assertion)
  else if _object = 0 then (m, .error .assertion)
  else
    match loadSet_at m _set with
    | (m1, .error f) => (m1, .error f)
    | (m1, .ok set) =>
      match find_loop_at _object fuel m1 set.head with
      | (m2, .error f) => (m2, .error f)
      | (m2, .ok tmp_elem) =>
        if tmp_elem = 0 then (m2, .ok 0)
        else
          match loadElement_at m2 tmp_elem with
          | (m3, .error f) => (m3, .error f)
          | (m3, .ok e) =>
            if e.object ≠ _object then (m3, .error .assertion)
            else (m3, .ok tmp_elem)

/-- The `while` loop of `find_prior_element` in state-passing form. -/
def find_prior_loop_at (object : Ptr) :
    Nat → Mem → Ptr → Ptr → Mem × Except Fault (Ptr × Ptr)
  | 0, m, _, _ => (m, .error .fuel)
  | fuel + 1, m, tmp_elem_last, tmp_elem =>
    if tmp_elem = 0 then (m, .ok (tmp_elem_last, tmp_elem))
    else
      match loadElement_at m tmp_elem with
      | (m1, .error f) => (m1, .error f)
      | (m1, .ok e) =>
        if e.object ≠ object then find_prior_loop_at object fuel m1 tmp_elem e.next
        else (m1, .ok (tmp_elem_last, tmp_elem))

/-- The function `find_prior_element(_set, _object)` in state-passing form. -/
def find_prior_element_at (fuel : Nat) (m : Mem) (_set _object : Ptr) :
    Mem × Except Fault Ptr :=
  if _set = 0 then (m, .error .assertion)
  else if _object = 0 then (m, .error .assertion)
  else
    match loadSet_at m _set with
    | (m1, .error f) => (m1, .error f)
    | (m1, .ok set) =>
      match find_prior_loop_at _object fuel m1 0 set.head with
      | (m2, .error f) => (m2, .error f)
      | (m2, .ok (tmp_elem_last, tmp_elem)) =>
        if tmp_elem = 0 then (m2, .ok 0)
        else (m2, .ok tmp_elem_last)

/-- The function `contains(_set, _object)` in state-passing form: the call of
`find` and the comparison of its result with 0. -/
def contains_at (fuel : Nat) (m : Mem) (_set _object : Ptr) : Mem × Except Fault Int :=
  match find_at fuel m _set _object with
  | (m1, .error f) => (m1, .error f)
  | (m1, .ok r) => (m1, .ok (if r ≠ 0 then 1 else 0))

/-- The function `count(_set)` in state-passing form. -/
def count_at (m : Mem) (_set : Ptr) : Mem × Except Fault Nat :=
  if _set = 0 then (m, .error .assertion)
  else
    match loadSet_at m _set with
    | (m1, .error f) => (m1, .error f)
    | (m1, .ok set) => (m1, .ok set.count)

/-- The function `differ(a, b)` in state-passing form: it compares its two
arguments and accesses no memory. -/
def differ_at (m : Mem) (a b : Ptr) : Mem × Int :=
  (m, if a ≠ b then 1 else 0)

/-! ## Memory and chain lemmas -/

@[simp] theorem write_same (m : Mem) (p : Ptr) (c : Option Cell) : m.write p c p = c := by
  simp [Mem.write]

theorem write_other (m : Mem) (p q : Ptr) (c : Option Cell) (h : q ≠ p) :
    m.write p c q = m q := by
  simp [Mem.write, h]

theorem chain_head {m : Mem} {p : Ptr} {l : List (Ptr × Ptr)} (h : Chain m p l) :
    p = headOf l := by
  cases l with
  | nil => simpa [Chain, headOf] using h
  | cons x l => obtain ⟨a, o⟩ := x; exact h.1

theorem chain_addr_ne_zero {m : Mem} {p : Ptr} {l : List (Ptr × Ptr)} (h : Chain m p l) :
    ∀ a ∈ addrs l, a ≠ 0 := by
  induction l generalizing p with
  | nil => simp [addrs]
  | cons x l ih =>
    obtain ⟨a, o⟩ := x
    obtain ⟨_, ha, _, hl⟩ := h
    intro b hb
    simp only [addrs, List.map_cons, List.mem_cons] at hb
    rcases hb with rfl | hb
    · exact ha
    · exact ih hl b hb

theorem chain_cell {m : Mem} {p : Ptr} {l : List (Ptr × Ptr)} (h : Chain m p l) :
    ∀ a ∈ addrs l, ∃ e, m a = some (.element e) := by
  induction l generalizing p with
  | nil => simp [addrs]
  | cons x l ih =>
    obtain ⟨a, o⟩ := x
    obtain ⟨_, _, hc, hl⟩ := h
    intro b hb
    simp only [addrs, List.map_cons, List.mem_cons] at hb
    rcases hb with rfl | hb
    · exact ⟨_, hc⟩
    · exact ih hl b hb

theorem headOf_eq_zero {m : Mem} {p : Ptr} {l : List (Ptr × Ptr)} (h : Chain m p l) :
    headOf l = 0 ↔ l = [] := by
  cases l with
  | nil => simp [headOf]
  | cons x l =>
    obtain ⟨a, o⟩ := x
    simpa [headOf] using h.2.1

theorem chain_unique {m : Mem} {p : Ptr} {l l' : List (Ptr × Ptr)}
    (h : Chain m p l) (h' : Chain m p l') : l = l' := by
  induction l generalizing p l' with
  | nil =>
    cases l' with
    | nil => rfl
    | cons y l' =>
      obtain ⟨b, o'⟩ := y
      have hp : p = 0 := h
      exact absurd (h'.1.symm.trans hp) h'.2.1
  | cons x l ih =>
    obtain ⟨a, o⟩ := x
    cases l' with
    | nil =>
      have hp : p = 0 := h'
      exact absurd (h.1.symm.trans hp) h.2.1
    | cons y l' =>
      obtain ⟨b, o'⟩ := y
      obtain ⟨hpa, _, hc, hl⟩ := h
      obtain ⟨hpb, _, hc', hl'⟩ := h'
      have hab : a = b := hpa.symm.trans hpb
      subst hab
      rw [hc] at hc'
      simp only [Option.some.injEq, Cell.element.injEq, Element.mk.injEq] at hc'
      obtain ⟨ho, hn⟩ := hc'
      subst ho
      rw [← hn] at hl'
      rw [ih hl hl']

theorem chain_suffix {m : Mem} {p : Ptr} (l1 l2 : List (Ptr × Ptr))
    (h : Chain m p (l1 ++ l2)) : Chain m (headOf l2) l2 := by
  induction l1 generalizing p with
  | nil =>
    have h' : Chain m p l2 := h
    rw [← chain_head h']
    exact h'
  | cons x l1 ih =>
    obtain ⟨a, o⟩ := x
    exact ih h.2.2.2

theorem chain_nodup {m : Mem} {p : Ptr} {l : List (Ptr × Ptr)} (h : Chain m p l) :
    (addrs l).Nodup := by
  induction l generalizing p with
  | nil => simp [addrs]
  | cons x l ih =>
    obtain ⟨a, o⟩ := x
    have hl : Chain m (headOf l) l := h.2.2.2
    simp only [addrs, List.map_cons, List.nodup_cons]
    refine ⟨?_, ih hl⟩
    intro hmem
    obtain ⟨⟨a', o'⟩, hx, hax⟩ := List.mem_map.1 hmem
    simp only at hax
    subst hax
    obtain ⟨l1, l2, hsplit⟩ := List.append_of_mem hx
    have hs : Chain m a' ((a', o') :: l2) := by
      have := chain_suffix l1 ((a', o') :: l2) (hsplit ▸ hl)
      simpa [headOf] using this
    have h0 : Chain m a' ((a', o) :: l) := ⟨rfl, h.2.1, h.2.2.1, hl⟩
    have heq := chain_unique h0 hs
    simp only [List.cons.injEq] at heq
    have hlen := congrArg List.length hsplit
    rw [heq.2] at hlen
    simp at hlen
    omega

theorem chain_frame {m m' : Mem} {p : Ptr} {l : List (Ptr × Ptr)} (h : Chain m p l)
    (hm : ∀ a ∈ addrs l, m' a = m a) : Chain m' p l := by
  induction l generalizing p with
  | nil => exact h
  | cons x l ih =>
    obtain ⟨a, o⟩ := x
    obtain ⟨hp, ha, hc, hl⟩ := h
    refine ⟨hp, ha, ?_, ih hl ?_⟩
    · rw [hm a (by simp [addrs])]; exact hc
    · intro b hb
      exact hm b (by simp only [addrs, List.map_cons, List.mem_cons]; exact Or.inr hb)

/-! ## The lookup loops on a chain -/

theorem firstAddr_absent {v : Ptr} {l : List (Ptr × Ptr)} (h : v ∉ objs l) :
    firstAddr v l = 0 := by
  induction l with
  | nil => rfl
  | cons x l ih =>
    obtain ⟨a, o⟩ := x
    simp only [objs, List.map_cons, List.mem_cons, not_or] at h
    have ho : ¬ o = v := fun e => h.1 e.symm
    simp only [firstAddr, ho, if_false]
    exact ih h.2

theorem firstAddr_present {m : Mem} {p v : Ptr} {l : List (Ptr × Ptr)} (hc : Chain m p l)
    (h : v ∈ objs l) :
    firstAddr v l ≠ 0 ∧ firstAddr v l ∈ addrs l ∧
      ∃ nx, m (firstAddr v l) = some (.element ⟨v, nx⟩) := by
  induction l generalizing p with
  | nil => simp [objs] at h
  | cons x l ih =>
    obtain ⟨a, o⟩ := x
    obtain ⟨_, ha, hcell, hl⟩ := hc
    by_cases ho : o = v
    · subst ho
      simp only [firstAddr, if_true]
      exact ⟨ha, by simp [addrs], _, hcell⟩
    · simp only [objs, List.map_cons, List.mem_cons] at h
      have hv : v ∈ objs l := by
        rcases h with h | h
        · exact absurd h.symm ho
        · exact h
      obtain ⟨h1, h2, h3⟩ := ih hl hv
      simp only [firstAddr, ho, if_false]
      refine ⟨h1, ?_, h3⟩
      simp only [addrs, List.map_cons, List.mem_cons]
      exact Or.inr h2

theorem find_loop_chain {m : Mem} {v : Ptr} {l : List (Ptr × Ptr)} :
    ∀ {p : Ptr} {fuel : Nat}, Chain m p l → l.length < fuel →
      find_loop m v fuel p = .ok (firstAddr v l) := by
  induction l with
  | nil =>
    intro p fuel hc hf
    have hp : p = 0 := hc
    cases fuel with
    | zero => simp at hf
    | succ k => simp [find_loop, hp, firstAddr]
  | cons x l ih =>
    intro p fuel hc hf
    obtain ⟨a, o⟩ := x
    obtain ⟨hp, ha, hcell, hl⟩ := hc
    cases fuel with
    | zero => simp at hf
    | succ k =>
      have hk : l.length < k := by simpa using hf
      by_cases ho : o = v
      · simp [find_loop, hp, ha, loadElement, hcell, firstAddr, ho]
      · simp [find_loop, hp, ha, loadElement, hcell, firstAddr, ho, ih hl hk]

theorem find_prior_loop_chain {m : Mem} {v : Ptr} {l : List (Ptr × Ptr)} :
    ∀ {p last : Ptr} {fuel : Nat}, Chain m p l → l.length < fuel →
      find_prior_loop m v fuel last p = .ok (priorAddr v last l, firstAddr v l) := by
  induction l with
  | nil =>
    intro p last fuel hc hf
    have hp : p = 0 := hc
    cases fuel with
    | zero => simp at hf
    | succ k => simp [find_prior_loop, hp, firstAddr, priorAddr]
  | cons x l ih =>
    intro p last fuel hc hf
    obtain ⟨a, o⟩ := x
    obtain ⟨hp, ha, hcell, hl⟩ := hc
    cases fuel with
    | zero => simp at hf
    | succ k =>
      have hk : l.length < k := by simpa using hf
      by_cases ho : o = v
      · simp [find_prior_loop, hp, ha, loadElement, hcell, firstAddr, priorAddr, ho]
      · simp [find_prior_loop, hp, ha, loadElement, hcell, firstAddr, priorAddr, ho, ih hl hk]

theorem loadSet_of {m : Mem} {p : Ptr} {s : Set} (h : m p = some (.set s)) :
    loadSet m p = .ok s := by
  simp [loadSet, h]

theorem loadElement_of {m : Mem} {p : Ptr} {e : Element} (h : m p = some (.element e)) :
    loadElement m p = .ok e := by
  simp [loadElement, h]

/-- What `find` returns on a set that satisfies the invariant. -/
theorem find_spec {m : Mem} {set v : Ptr} {l : List (Ptr × Ptr)} {fuel : Nat}
    (hinv : Inv m set l) (hv : v ≠ 0) (hf : l.length < fuel) :
    find fuel m set v = .ok (if v ∈ objs l then v else 0) := by
  obtain ⟨hset, s, hs, _, _, hc⟩ := hinv
  unfold find
  rw [if_neg hset, if_neg hv, loadSet_of hs]
  simp only [find_loop_chain hc hf]
  by_cases hmem : v ∈ objs l
  · obtain ⟨h1, _, nx, h3⟩ := firstAddr_present hc hmem
    simp [h1, loadElement_of h3, hv, hmem]
  · simp [firstAddr_absent hmem, hmem]

/-- What `find_element` returns on a set that satisfies the invariant. -/
theorem find_element_spec {m : Mem} {set v : Ptr} {l : List (Ptr × Ptr)} {fuel : Nat}
    (hinv : Inv m set l) (hv : v ≠ 0) (hf : l.length < fuel) :
    find_element fuel m set v = .ok (firstAddr v l) := by
  obtain ⟨hset, s, hs, _, _, hc⟩ := hinv
  unfold find_element
  rw [if_neg hset, if_neg hv, loadSet_of hs]
  simp only [find_loop_chain hc hf]
  by_cases hmem : v ∈ objs l
  · obtain ⟨h1, _, nx, h3⟩ := firstAddr_present hc hmem
    simp [h1, loadElement_of h3]
  · simp [firstAddr_absent hmem]

/-- What `find_prior_element` returns on a set that satisfies the invariant. -/
theorem find_prior_element_spec {m : Mem} {set v : Ptr} {l : List (Ptr × Ptr)} {fuel : Nat}
    (hinv : Inv m set l) (hv : v ≠ 0) (hf : l.length < fuel) :
    find_prior_element fuel m set v =
      .ok (if firstAddr v l = 0 then 0 else priorAddr v 0 l) := by
  obtain ⟨hset, s, hs, _, _, hc⟩ := hinv
  unfold find_prior_element
  rw [if_neg hset, if_neg hv, loadSet_of hs]
  simp only [find_prior_loop_chain hc hf]
  by_cases h0 : firstAddr v l = 0 <;> simp [h0]

/-! ## Removal from a chain -/

theorem eraseFirst_absent {v : Ptr} {l : List (Ptr × Ptr)} (h : v ∉ objs l) :
    eraseFirst v l = l := by
  induction l with
  | nil => rfl
  | cons x l ih =>
    obtain ⟨a, o⟩ := x
    simp only [objs, List.map_cons, List.mem_cons, not_or] at h
    have ho : ¬ o = v := fun e => h.1 e.symm
    simp only [eraseFirst, ho, if_false]
    rw [ih h.2]

theorem eraseFirst_length {v : Ptr} {l : List (Ptr × Ptr)} (h : v ∈ objs l) :
    (eraseFirst v l).length + 1 = l.length := by
  induction l with
  | nil => simp [objs] at h
  | cons x l ih =>
    obtain ⟨a, o⟩ := x
    by_cases ho : o = v
    · simp [eraseFirst, ho]
    · simp only [objs, List.map_cons, List.mem_cons] at h
      have hv : v ∈ objs l := by
        rcases h with h | h
        · exact absurd h.symm ho
        · exact h
      simp [eraseFirst, ho, ih hv]

theorem mem_addrs_eraseFirst {v a : Ptr} {l : List (Ptr × Ptr)}
    (h : a ∈ addrs (eraseFirst v l)) : a ∈ addrs l := by
  induction l with
  | nil => exact h
  | cons x l ih =>
    obtain ⟨b, o⟩ := x
    by_cases ho : o = v
    · simp only [eraseFirst, ho, if_true] at h
      simp only [addrs, List.map_cons, List.mem_cons]
      exact Or.inr h
    · simp only [eraseFirst, ho, if_false, addrs, List.map_cons, List.mem_cons] at h
      simp only [addrs, List.map_cons, List.mem_cons]
      rcases h with h | h
      · exact Or.inl h
      · exact Or.inr (ih h)

/-- Unlinking the first Element that stores `v` when it is not the head:
the chain from `a0`, whose own Element does not store `v`. -/
theorem unlink_inner {m : Mem} {set v : Ptr} :
    ∀ (l : List (Ptr × Ptr)) (a0 o0 : Ptr), Chain m a0 ((a0, o0) :: l) → o0 ≠ v →
      v ∈ objs l →
      ∃ m2, drop_unlink m set (priorAddr v a0 l) (firstAddr v l) = .ok m2 ∧
        Chain m2 a0 ((a0, o0) :: eraseFirst v l) ∧
        m2 (firstAddr v l) = none ∧
        ∀ q, q ∉ addrs ((a0, o0) :: l) → m2 q = m q := by
  intro l
  induction l with
  | nil => intro a0 o0 _ _ hv; simp [objs] at hv
  | cons x l ih =>
    intro a0 o0 hc ho0 hv
    obtain ⟨a1, o1⟩ := x
    have hnd := chain_nodup hc
    simp only [addrs, List.map_cons, List.nodup_cons, List.mem_cons, not_or] at hnd
    obtain ⟨⟨h01, h0l⟩, h1l, _⟩ := hnd
    obtain ⟨_, ha0, hcell0, hc1⟩ := hc
    simp only [headOf] at hcell0 hc1
    obtain ⟨_, ha1, hcell1, hcl⟩ := hc1
    by_cases ho1 : o1 = v
    · subst ho1
      have hm1 : (m.write a0 (some (.element ⟨o0, headOf l⟩))) a1 = m a1 :=
        write_other _ _ _ _ (Ne.symm h01)
      refine ⟨(m.write a0 (some (.element ⟨o0, headOf l⟩))).write a1 none, ?_, ?_, ?_, ?_⟩
      · simp [drop_unlink, priorAddr, firstAddr, loadElement, hcell1, ha0, storeNext,
          hcell0, delete, ha1, hm1]
      · refine ⟨rfl, ha0, ?_, ?_⟩
        · simp only [eraseFirst, if_true]
          rw [write_other _ _ _ _ h01, write_same]
        · simp only [eraseFirst, if_true]
          refine chain_frame hcl ?_
          intro b hb
          have hb1 : b ≠ a1 := fun e => h1l (e ▸ hb)
          have hb0 : b ≠ a0 := fun e => h0l (e ▸ hb)
          rw [write_other _ _ _ _ hb1, write_other _ _ _ _ hb0]
      · simp [firstAddr]
      · intro q hq
        simp only [addrs, List.map_cons, List.mem_cons, not_or] at hq
        rw [write_other _ _ _ _ hq.2.1, write_other _ _ _ _ hq.1]
    · have hvl : v ∈ objs l := by
        simp only [objs, List.map_cons, List.mem_cons] at hv
        rcases hv with h | h
        · exact absurd h.symm ho1
        · exact h
      obtain ⟨m2, hrun, hch, hfree, hfr⟩ :=
        ih a1 o1 ⟨rfl, ha1, hcell1, hcl⟩ ho1 hvl
      refine ⟨m2, ?_, ?_, ?_, ?_⟩
      · simpa [priorAddr, firstAddr, ho1] using hrun
      · simp only [eraseFirst, ho1, if_false]
        refine ⟨rfl, ha0, ?_, hch⟩
        have : m2 a0 = m a0 := hfr a0 (by
          simp only [addrs, List.map_cons, List.mem_cons, not_or]
          exact ⟨h01, h0l⟩)
        rw [this, hcell0]
        rfl
      · simpa [firstAddr, ho1] using hfree
      · intro q hq
        refine hfr q ?_
        simp only [addrs, List.map_cons, List.mem_cons, not_or] at hq ⊢
        exact hq.2

/-- Unlinking the first Element that stores `v`, head or not. -/
theorem unlink_spec {m : Mem} {set v : Ptr} {s : Set} {l : List (Ptr × Ptr)}
    (hs : m set = some (.set s)) (hc : Chain m s.head l) (hv : v ∈ objs l) :
    ∃ m2, drop_unlink m set (priorAddr v 0 l) (firstAddr v l) = .ok m2 ∧
      m2 set = some (.set ⟨s.count, headOf (eraseFirst v l)⟩) ∧
      Chain m2 (headOf (eraseFirst v l)) (eraseFirst v l) ∧
      m2 (firstAddr v l) = none ∧
      ∀ q, q ≠ set → q ∉ addrs l → m2 q = m q := by
  have hsetl : set ∉ addrs l := by
    intro hmem
    obtain ⟨e, he⟩ := chain_cell hc set hmem
    rw [hs] at he
    cases he
  cases l with
  | nil => simp [objs] at hv
  | cons x l =>
    obtain ⟨a, o⟩ := x
    have hnd := chain_nodup hc
    simp only [addrs, List.map_cons, List.nodup_cons] at hnd
    simp only [addrs, List.map_cons, List.mem_cons, not_or] at hsetl
    obtain ⟨hsh, ha, hcell, hcl⟩ := hc
    by_cases ho : o = v
    · subst ho
      have hm1 : (m.write set (some (.set ⟨s.count, headOf l⟩))) a = m a :=
        write_other _ _ _ _ (Ne.symm hsetl.1)
      refine ⟨(m.write set (some (.set ⟨s.count, headOf l⟩))).write a none, ?_, ?_, ?_, ?_, ?_⟩
      · simp [drop_unlink, priorAddr, firstAddr, loadElement, hcell, storeHead, hs,
          delete, ha, hm1]
      · simp only [eraseFirst, if_true]
        rw [write_other _ _ _ _ hsetl.1, write_same]
      · simp only [eraseFirst, if_true]
        refine chain_frame hcl ?_
        intro b hb
        have hba : b ≠ a := fun e => hnd.1 (e ▸ hb)
        have hbs : b ≠ set := fun e => hsetl.2 (e ▸ hb)
        rw [write_other _ _ _ _ hba, write_other _ _ _ _ hbs]
      · simp [firstAddr]
      · intro q hqs hq
        simp only [addrs, List.map_cons, List.mem_cons, not_or] at hq
        rw [write_other _ _ _ _ hq.1, write_other _ _ _ _ hqs]
    · have hvl : v ∈ objs l := by
        simp only [objs, List.map_cons, List.mem_cons] at hv
        rcases hv with h | h
        · exact absurd h.symm ho
        · exact h
      obtain ⟨m2, hrun, hch, hfree, hfr⟩ :=
        @unlink_inner m set v l a o ⟨rfl, ha, hcell, hcl⟩ ho hvl
      refine ⟨m2, ?_, ?_, ?_, ?_, ?_⟩
      · simpa [priorAddr, firstAddr, ho] using hrun
      · rw [hfr set (by
          simp only [addrs, List.map_cons, List.mem_cons, not_or]
          exact hsetl), hs]
        cases s
        simp only at hsh
        simp [eraseFirst, ho, headOf, hsh]
      · simpa [eraseFirst, ho, headOf] using hch
      · simpa [firstAddr, ho] using hfree
      · intro q _ hq
        exact hfr q hq

/-! ## `drop` on a set that satisfies the invariant -/

theorem set_not_in_chain {m : Mem} {set : Ptr} {s : Set} {p : Ptr} {l : List (Ptr × Ptr)}
    (hs : m set = some (.set s)) (hc : Chain m p l) : set ∉ addrs l := by
  intro hmem
  obtain ⟨e, he⟩ := chain_cell hc set hmem
  rw [hs] at he
  cases he

theorem decr_mod {n : Nat} (h0 : 0 < n) (hn : n < UINT_MOD) :
    (n + UINT_MOD - 1) % UINT_MOD = n - 1 := by
  unfold UINT_MOD at *
  omega

theorem drop_present {m : Mem} {set v : Ptr} {l : List (Ptr × Ptr)} {fuel : Nat}
    (hinv : Inv m set l) (hv : v ≠ 0) (hf : l.length < fuel) (hmem : v ∈ objs l) :
    ∃ m', drop fuel m set v = .ok (m', v) ∧
      m' set = some (.set ⟨l.length - 1, headOf (eraseFirst v l)⟩) ∧
      Inv m' set (eraseFirst v l) ∧
      m' (firstAddr v l) = none ∧
      ∀ q, q ≠ set → q ∉ addrs l → m' q = m q := by
  have hfind := find_spec hinv hv hf
  have hprior := find_prior_element_spec hinv hv hf
  have helem := find_element_spec hinv hv hf
  obtain ⟨hset, s, hs, hcount, hlt, hc⟩ := hinv
  obtain ⟨hfa, hfmem, _⟩ := firstAddr_present hc hmem
  obtain ⟨m2, hrun, hm2s, hch, hfree, hfr⟩ := unlink_spec hs hc hmem
  have hlen := eraseFirst_length hmem
  have hpos : 0 < s.count := by omega
  have hfs : firstAddr v l ≠ set := fun e => set_not_in_chain hs hc (e ▸ hfmem)
  have hsl : set ∉ addrs (eraseFirst v l) := set_not_in_chain hm2s hch
  refine ⟨m2.write set (some (.set ⟨l.length - 1, headOf (eraseFirst v l)⟩)), ?_, ?_, ?_, ?_, ?_⟩
  · unfold drop
    rw [hfind]
    simp only [hmem, if_true, hv, ne_eq, not_false_eq_true]
    rw [hprior, helem]
    simp only [hfa, if_false]
    rw [hrun]
    have hdec : (l.length + UINT_MOD - 1) % UINT_MOD = l.length - 1 :=
      decr_mod (hcount ▸ hpos) (hcount ▸ hlt)
    simp [decrCount, loadSet, hm2s, storeCount, hcount, hdec]
  · exact write_same _ _ _
  · refine ⟨hset, ⟨l.length - 1, headOf (eraseFirst v l)⟩, write_same _ _ _, ?_, ?_, ?_⟩
    · simp only; omega
    · simp only; omega
    · refine chain_frame hch ?_
      intro b hb
      exact write_other _ _ _ _ (fun e => hsl (e ▸ hb))
  · rw [write_other _ _ _ _ hfs]
    exact hfree
  · intro q hqs hq
    rw [write_other _ _ _ _ hqs]
    exact hfr q hqs hq

theorem drop_absent {m : Mem} {set v : Ptr} {l : List (Ptr × Ptr)} {fuel : Nat}
    (hinv : Inv m set l) (hv : v ≠ 0) (hf : l.length < fuel) (hmem : v ∉ objs l) :
    drop fuel m set v = .ok (m, 0) := by
  unfold drop
  rw [find_spec hinv hv hf]
  simp [hmem]

/-! ## `add` on a set that satisfies the invariant -/

theorem lastOf_spec {m : Mem} {p : Ptr} {l : List (Ptr × Ptr)} (hc : Chain m p l)
    (hne : l ≠ []) :
    lastOf l ∈ addrs l ∧ ∃ o, m (lastOf l) = some (.element ⟨o, 0⟩) := by
  induction l generalizing p with
  | nil => exact absurd rfl hne
  | cons x l ih =>
    obtain ⟨a, o⟩ := x
    obtain ⟨_, _, hcell, hl⟩ := hc
    cases l with
    | nil => exact ⟨by simp [lastOf, addrs], o, by simpa [headOf, lastOf] using hcell⟩
    | cons y l =>
      obtain ⟨h1, h2⟩ := ih hl (by simp)
      refine ⟨?_, h2⟩
      simp only [addrs, List.map_cons, List.mem_cons] at h1 ⊢
      exact Or.inr h1

/-- The fuel `add` gives its traversal always suffices: the loop makes fewer
than `count` steps. -/
theorem add_loop_fuel (m : Mem) (count : Nat) :
    ∀ (fuel cur : Nat) (p : Ptr), 0 < fuel → count < fuel + cur →
      add_loop m count fuel cur p ≠ .error .fuel := by
  intro fuel
  induction fuel with
  | zero => intro cur p h; exact absurd h (by simp)
  | succ k ih =>
    intro cur p _ h
    by_cases hlt : cur < count
    · cases he : loadElement m p with
      | error f =>
        have hf : f = .undefined := by
          unfold loadElement at he
          split at he <;> simp_all
        simp [add_loop, hlt, he, hf]
      | ok e =>
        by_cases h0 : e.next = 0
        · simp [add_loop, hlt, he, h0]
        · by_cases hmax : cur = INT_MAX
          · subst hmax
            simp [add_loop, hlt, he, h0]
          · simpa [add_loop, hlt, he, h0, hmax] using
              ih (cur + 1) e.next (by omega) (by omega)
    · simp [add_loop, hlt]

/-- The traversal of `add` ends on the last Element when the counter stays an `int`. -/
theorem add_loop_chain {m : Mem} {count : Nat} {l : List (Ptr × Ptr)} :
    ∀ {p : Ptr} {cur fuel : Nat}, Chain m p l → l ≠ [] → cur + l.length = count + 1 →
      count ≤ INT_MAX → l.length ≤ fuel →
      add_loop m count fuel cur p = .ok (lastOf l) := by
  induction l with
  | nil => intro p cur fuel _ hne; exact absurd rfl hne
  | cons x l ih =>
    intro p cur fuel hc _ hcur hcount hf
    obtain ⟨a, o⟩ := x
    obtain ⟨hp, ha, hcell, hl⟩ := hc
    cases fuel with
    | zero => simp at hf
    | succ k =>
      cases l with
      | nil =>
        have : ¬ cur < count := by simp at hcur; omega
        simp [add_loop, this, hp, lastOf]
      | cons y l =>
        obtain ⟨b, o'⟩ := y
        have hlt : cur < count := by simp at hcur; omega
        have hb : b ≠ 0 := hl.2.1
        have hmax : cur ≠ INT_MAX := by omega
        have hrec := @ih b (cur + 1) k hl (by simp)
          (by simp at hcur ⊢; omega) hcount (by simpa using hf)
        simp only [headOf] at hcell
        simp [add_loop, hlt, hp, loadElement, hcell, hb, hmax, hrec, lastOf]

/-- The traversal of `add` overflows its `int` counter when `count` exceeds `INT_MAX`. -/
theorem add_loop_overflow {m : Mem} {count : Nat} {l : List (Ptr × Ptr)} :
    ∀ {p : Ptr} {cur fuel : Nat}, Chain m p l → l ≠ [] → cur + l.length = count + 1 →
      cur ≤ INT_MAX → INT_MAX < count → l.length ≤ fuel →
      add_loop m count fuel cur p = .error .undefined := by
  induction l with
  | nil => intro p cur fuel _ hne; exact absurd rfl hne
  | cons x l ih =>
    intro p cur fuel hc _ hcur hle hcount hf
    obtain ⟨a, o⟩ := x
    obtain ⟨hp, ha, hcell, hl⟩ := hc
    cases fuel with
    | zero => simp at hf
    | succ k =>
      cases l with
      | nil => simp at hcur; omega
      | cons y l =>
        obtain ⟨b, o'⟩ := y
        have hlt : cur < count := by simp at hcur; omega
        have hb : b ≠ 0 := hl.2.1
        simp only [headOf] at hcell
        by_cases hmax : cur = INT_MAX
        · subst hmax
          simp [add_loop, hlt, hp, loadElement, hcell, hb]
        · have hrec := @ih b (cur + 1) k hl (by simp)
            (by simp at hcur ⊢; omega) (by omega) hcount (by simpa using hf)
          simp [add_loop, hlt, hp, loadElement, hcell, hb, hmax, hrec]

/-- Linking a new Element `(p, v)` behind the last Element of a chain. -/
theorem chain_append {m m' : Mem} {p v : Ptr} {l : List (Ptr × Ptr)} :
    ∀ {hd : Ptr}, Chain m hd l → l ≠ [] →
      (∀ a o nx, a ∈ addrs l → m a = some (.element ⟨o, nx⟩) →
        m' a = some (.element ⟨o, if nx = 0 then p else nx⟩)) →
      p ≠ 0 → m' p = some (.element ⟨v, 0⟩) →
      Chain m' hd (l ++ [(p, v)]) := by
  induction l with
  | nil => intro hd _ hne; exact absurd rfl hne
  | cons x l ih =>
    intro hd hc _ hm hp hcellp
    obtain ⟨a, o⟩ := x
    obtain ⟨hhd, ha, hcell, hl⟩ := hc
    have hma := hm a o (headOf l) (by simp [addrs]) hcell
    cases l with
    | nil =>
      refine ⟨hhd, ha, ?_, rfl, hp, ?_, rfl⟩
      · simpa [headOf] using hma
      · simpa [headOf] using hcellp
    | cons y l =>
      obtain ⟨b, o'⟩ := y
      have hb : b ≠ 0 := hl.2.1
      refine ⟨hhd, ha, ?_, ?_⟩
      · simpa [headOf, hb] using hma
      · refine @ih b hl (by simp) ?_ hp hcellp
        intro c oc nx hcm hcc
        exact hm c oc nx (by
          simp only [addrs, List.map_cons, List.mem_cons] at hcm ⊢
          exact Or.inr hcm) hcc

theorem incr_mod {n : Nat} (hn : n ≤ INT_MAX) : (n + 1) % UINT_MOD = n + 1 := by
  unfold UINT_MOD INT_MAX at *
  omega

/-- In a chain only the last Element has an empty `next` link. -/
theorem chain_last_unique {m : Mem} {p a o : Ptr} {l : List (Ptr × Ptr)} (hc : Chain m p l)
    (ha : a ∈ addrs l) (hcell : m a = some (.element ⟨o, 0⟩)) : a = lastOf l := by
  induction l generalizing p with
  | nil => simp [addrs] at ha
  | cons x l ih =>
    obtain ⟨b, ob⟩ := x
    obtain ⟨_, _, hcb, hl⟩ := hc
    cases l with
    | nil => simpa [addrs, lastOf] using ha
    | cons y l =>
      obtain ⟨c, oc⟩ := y
      simp only [addrs, List.map_cons, List.mem_cons] at ha
      rcases ha with rfl | ha
      · rw [hcb] at hcell
        simp only [headOf, Option.some.injEq, Cell.element.injEq, Element.mk.injEq] at hcell
        exact absurd hcell.2 hl.2.1
      · exact ih hl (by simpa [addrs] using ha)

theorem headOf_append {l : List (Ptr × Ptr)} (x : Ptr × Ptr) (hne : l ≠ []) :
    headOf (l ++ [x]) = headOf l := by
  cases l with
  | nil => exact absurd rfl hne
  | cons y l => rfl

/-- The result of `add` when allocation succeeds and `count` is at most `INT_MAX`. -/
theorem add_spec {m : Mem} {p set v : Ptr} {l : List (Ptr × Ptr)}
    (hinv : Inv m set l) (hv : v ≠ 0) (hp : p ≠ 0) (hfresh : m p = none)
    (hsmall : l.length ≤ INT_MAX) :
    ∃ m', add m p set v = .ok (m', v) ∧
      m' set = some (.set ⟨l.length + 1, headOf (l ++ [(p, v)])⟩) ∧
      Inv m' set (l ++ [(p, v)]) ∧
      ∀ q, q ≠ set → q ≠ p → q ≠ lastOf l → m' q = m q := by
  obtain ⟨hset, s, hs, hcount, hlt, hc⟩ := hinv
  obtain ⟨n, hd⟩ := s
  simp only at hcount hlt hc
  subst hcount
  have hsp : set ≠ p := fun e => by rw [e, hfresh] at hs; cases hs
  have hpl : p ∉ addrs l := fun hmem => by
    obtain ⟨e, he⟩ := chain_cell hc p hmem
    rw [hfresh] at he
    cases he
  have hsl : set ∉ addrs l := set_not_in_chain hs hc
  have hinc : (l.length + 1) % UINT_MOD = l.length + 1 := incr_mod hsmall
  have hlt' : l.length + 1 < UINT_MOD := by
    unfold UINT_MOD INT_MAX at *
    omega
  cases hl : l with
  | nil =>
    subst hl
    have hhd : hd = 0 := hc
    subst hhd
    refine ⟨(((m.write p (some (.element ⟨0, 0⟩))).write set (some (.set ⟨0, p⟩))).write p
      (some (.element ⟨v, 0⟩))).write set (some (.set ⟨1, p⟩)), ?_, ?_, ?_, ?_⟩
    · have h1 : UINT_MOD = 4294967296 := rfl
      simp [add, hset, hv, loadSet, hs, add_head, new, hp, Descriptor.zero, storeHead,
        Mem.write, hsp, Ne.symm hsp, storeObject, incrCount, storeCount, h1]
    · simp [headOf]
    · refine ⟨hset, ⟨1, p⟩, write_same _ _ _, rfl, by simp [UINT_MOD], rfl, hp, ?_, rfl⟩
      rw [write_other _ _ _ _ (Ne.symm hsp), write_same]
      rfl
    · intro q hqs hqp _
      rw [write_other _ _ _ _ hqs, write_other _ _ _ _ hqp, write_other _ _ _ _ hqs,
        write_other _ _ _ _ hqp]
  | cons x l0 =>
    rw [← hl]
    have hne : l ≠ [] := by rw [hl]; simp
    have hpos : 0 < l.length := List.length_pos.2 hne
    obtain ⟨htmem, ot, ht⟩ := lastOf_spec hc hne
    have htp : lastOf l ≠ p := fun e => hpl (e ▸ htmem)
    have hts : lastOf l ≠ set := fun e => hsl (e ▸ htmem)
    have hloop : add_loop m l.length l.length 1 hd = .ok (lastOf l) :=
      add_loop_chain hc hne (by omega) hsmall (le_refl _)
    refine ⟨(((m.write p (some (.element ⟨0, 0⟩))).write (lastOf l)
      (some (.element ⟨ot, p⟩))).write p (some (.element ⟨v, 0⟩))).write set
      (some (.set ⟨l.length + 1, hd⟩)), ?_, ?_, ?_, ?_⟩
    · simp [add, hset, hv, loadSet, hs, hpos, add_tail, hloop, loadElement, ht, new, hp,
        Descriptor.zero, storeNext, Mem.write, htp, Ne.symm htp, storeObject, hsp,
        Ne.symm hsp, hts, Ne.symm hts, incrCount, storeCount, hinc]
    · rw [write_same, headOf_append _ hne, chain_head hc]
    · refine ⟨hset, ⟨l.length + 1, hd⟩, write_same _ _ _, by simp, hlt', ?_⟩
      refine chain_append hc hne ?_ hp ?_
      · intro a o nx ha hcell
        have has : a ≠ set := fun e => hsl (e ▸ ha)
        have hap : a ≠ p := fun e => hpl (e ▸ ha)
        rw [write_other _ _ _ _ has, write_other _ _ _ _ hap]
        by_cases hat : a = lastOf l
        · subst hat
          rw [hcell] at ht
          simp only [Option.some.injEq, Cell.element.injEq, Element.mk.injEq] at ht
          rw [write_same, ht.1, ht.2]
          simp
        · rw [write_other _ _ _ _ hat, write_other _ _ _ _ hap, hcell]
          have hnx : nx ≠ 0 := by
            intro h0
            subst h0
            exact hat (chain_last_unique hc ha hcell)
          simp [hnx]
      · rw [write_other _ _ _ _ (Ne.symm hsp), write_same]
    · intro q hqs hqp hqt
      rw [write_other _ _ _ _ hqs, write_other _ _ _ _ hqp, write_other _ _ _ _ hqt,
        write_other _ _ _ _ hqp]

/-- The call `add` on a set whose `count` exceeds `INT_MAX`: the loop counter
overflows. -/
theorem add_overflow {m : Mem} {p set v : Ptr} {l : List (Ptr × Ptr)}
    (hinv : Inv m set l) (hv : v ≠ 0) (hbig : INT_MAX < l.length) :
    add m p set v = .error .undefined := by
  obtain ⟨hset, s, hs, hcount, hlt, hc⟩ := hinv
  obtain ⟨n, hd⟩ := s
  simp only at hcount hlt hc
  subst hcount
  have hne : l ≠ [] := by
    intro h
    rw [h] at hbig
    simp at hbig
  have hpos : 0 < l.length := List.length_pos.2 hne
  have hloop : add_loop m l.length l.length 1 hd = .error .undefined :=
    add_loop_overflow hc hne (by omega) (by unfold INT_MAX; omega) hbig (le_refl _)
  simp [add, hset, hv, loadSet, hs, hpos, add_tail, hloop]

/-! ## Listings -/

theorem eraseFirst_split {v : Ptr} {l : List (Ptr × Ptr)} (h : v ∈ objs l) :
    ∃ l1 a l2, l = l1 ++ (a, v) :: l2 ∧ v ∉ objs l1 ∧ eraseFirst v l = l1 ++ l2 ∧
      firstAddr v l = a := by
  induction l with
  | nil => simp [objs] at h
  | cons x l ih =>
    obtain ⟨b, o⟩ := x
    by_cases ho : o = v
    · subst ho
      exact ⟨[], b, l, rfl, by simp [objs], by simp [eraseFirst], by simp [firstAddr]⟩
    · simp only [objs, List.map_cons, List.mem_cons] at h
      have hv : v ∈ objs l := by
        rcases h with h | h
        · exact absurd h.symm ho
        · exact h
      obtain ⟨l1, a, l2, h1, h2, h3, h4⟩ := ih hv
      refine ⟨(b, o) :: l1, a, l2, by rw [h1]; rfl, ?_, ?_, ?_⟩
      · simp only [objs, List.map_cons, List.mem_cons, not_or]
        exact ⟨fun e => ho e.symm, h2⟩
      · simp [eraseFirst, ho, h3]
      · simp [firstAddr, ho, h4]

theorem eraseFirst_sublist (v : Ptr) (l : List (Ptr × Ptr)) : (eraseFirst v l).Sublist l := by
  induction l with
  | nil => exact List.Sublist.slnil
  | cons x l ih =>
    obtain ⟨b, o⟩ := x
    by_cases ho : o = v
    · simp only [eraseFirst, ho, if_true]
      exact List.sublist_cons_self _ _
    · simp only [eraseFirst, ho, if_false]
      exact ih.cons₂ _

theorem count_eraseFirst_ne {v w : Ptr} (hw : w ≠ v) (l : List (Ptr × Ptr)) :
    (objs (eraseFirst v l)).count w = (objs l).count w := by
  induction l with
  | nil => rfl
  | cons x l ih =>
    obtain ⟨b, o⟩ := x
    by_cases ho : o = v
    · subst ho
      simp only [eraseFirst, if_true, objs, List.map_cons]
      rw [List.count_cons_of_ne hw]
    · simp only [eraseFirst, ho, if_false, objs, List.map_cons, List.count_cons]
      simp only [objs] at ih
      rw [ih]

theorem count_eraseFirst_self {v : Ptr} {l : List (Ptr × Ptr)} (h : v ∈ objs l) :
    (objs (eraseFirst v l)).count v + 1 = (objs l).count v := by
  induction l with
  | nil => simp [objs] at h
  | cons x l ih =>
    obtain ⟨b, o⟩ := x
    by_cases ho : o = v
    · subst ho
      simp [eraseFirst, objs]
    · simp only [objs, List.map_cons, List.mem_cons] at h
      have hv : v ∈ objs l := by
        rcases h with h | h
        · exact absurd h.symm ho
        · exact h
      have := ih hv
      simp only [objs] at this
      simp only [eraseFirst, ho, if_false, objs, List.map_cons]
      have hvo : v ≠ o := fun e => ho e.symm
      rw [List.count_cons_of_ne hvo, List.count_cons_of_ne hvo]
      exact this

theorem count_of_inv {m : Mem} {set : Ptr} {l : List (Ptr × Ptr)} (hinv : Inv m set l) :
    count m set = .ok l.length := by
  obtain ⟨hset, s, hs, hcount, _, _⟩ := hinv
  simp [count, hset, loadSet, hs, hcount]

theorem sampleInv : Inv sampleMem 1 sampleList :=
  ⟨by decide, ⟨3, 2⟩, rfl, rfl, by simp [UINT_MOD], by decide⟩

/-! ## The contract of `find` and `drop` -/

/-- Claim C2: on a set that satisfies the count/chain invariant, `drop` of a
non-empty value `v` that occurs in the chain returns `v`, decreases `count` by
exactly 1 and leaves the old chain without its first Element that stores `v`:
the listing splits as `l1 ++ (a, v) :: l2` with `v` not stored in `l1`, the
new chain is `l1 ++ l2` (same addresses, same stored references, same order,
later duplicates of `v` included) and the Element at `a` is released. -/
theorem C2_drop_removes_first (m : Mem) (set v : Ptr) (l : List (Ptr × Ptr)) (fuel : Nat)
    (hinv : Inv m set l) (hv : v ≠ 0) (hmem : v ∈ objs l) (hf : l.length < fuel) :
    ∃ m' l1 a l2, drop fuel m set v = .ok (m', v) ∧
      l = l1 ++ (a, v) :: l2 ∧ v ∉ objs l1 ∧
      Inv m' set (l1 ++ l2) ∧
      count m set = .ok (l1.length + l2.length + 1) ∧
      count m' set = .ok (l1.length + l2.length) ∧
      m' a = none := by
  obtain ⟨m', hrun, _, hinv', hfree, _⟩ := drop_present hinv hv hf hmem
  obtain ⟨l1, a, l2, hl, hl1, her, hfa⟩ := eraseFirst_split hmem
  refine ⟨m', l1, a, l2, hrun, hl, hl1, her ▸ hinv', ?_, ?_, hfa ▸ hfree⟩
  · rw [count_of_inv hinv, hl]
    simp
    omega
  · rw [count_of_inv (her ▸ hinv')]
    simp

/-- The theorem `C2_drop_removes_first` on the sample memory, dropping `7`. -/
theorem C2_drop_removes_first_witness :
    Inv sampleMem 1 sampleList ∧ (7 : Ptr) ≠ 0 ∧ 7 ∈ objs sampleList ∧ sampleList.length < 4 ∧
    ∃ m' l1 a l2, drop 4 sampleMem 1 7 = .ok (m', 7) ∧
      sampleList = l1 ++ (a, 7) :: l2 ∧ 7 ∉ objs l1 ∧
      Inv m' 1 (l1 ++ l2) ∧
      count sampleMem 1 = .ok (l1.length + l2.length + 1) ∧
      count m' 1 = .ok (l1.length + l2.length) ∧
      m' a = none :=
  ⟨sampleInv, by decide, by decide, by decide,
    C2_drop_removes_first sampleMem 1 7 sampleList 4 sampleInv (by decide) (by decide)
      (by decide)⟩

/-- Claim C4: on a set that satisfies the count/chain invariant and for a
non-empty value `v`, `find` returns `v` if some Element of the chain stores
`v`, and the empty reference if the chain is exhausted without one. -/
theorem C4_find_result (m : Mem) (set v : Ptr) (l : List (Ptr × Ptr)) (fuel : Nat)
    (hinv : Inv m set l) (hv : v ≠ 0) (hf : l.length < fuel) :
    (v ∈ objs l → find fuel m set v = .ok v) ∧
    (v ∉ objs l → find fuel m set v = .ok 0) := by
  have h := find_spec hinv hv hf
  constructor
  · intro hmem
    rw [h, if_pos hmem]
  · intro hmem
    rw [h, if_neg hmem]

/-- The theorem `C4_find_result` on the sample memory, looking for `8`. -/
theorem C4_find_result_witness :
    Inv sampleMem 1 sampleList ∧ (8 : Ptr) ≠ 0 ∧ sampleList.length < 4 ∧
    ((8 ∈ objs sampleList → find 4 sampleMem 1 8 = .ok 8) ∧
     (8 ∉ objs sampleList → find 4 sampleMem 1 8 = .ok 0)) :=
  ⟨sampleInv, by decide, by decide,
    C4_find_result sampleMem 1 8 sampleList 4 sampleInv (by decide) (by decide)⟩

/-- Claim C5: on a set that satisfies the count/chain invariant, `drop` of a
non-empty value that does not occur in the chain returns the empty reference
and leaves the whole memory as it was: `count`, `head` and every Element. -/
theorem C5_drop_absent_unchanged (m : Mem) (set v : Ptr) (l : List (Ptr × Ptr)) (fuel : Nat)
    (hinv : Inv m set l) (hv : v ≠ 0) (hmem : v ∉ objs l) (hf : l.length < fuel) :
    drop fuel m set v = .ok (m, 0) :=
  drop_absent hinv hv hf hmem

/-- The theorem `C5_drop_absent_unchanged` on the sample memory, dropping `9`. -/
theorem C5_drop_absent_unchanged_witness :
    Inv sampleMem 1 sampleList ∧ (9 : Ptr) ≠ 0 ∧ 9 ∉ objs sampleList ∧ sampleList.length < 4 ∧
    drop 4 sampleMem 1 9 = .ok (sampleMem, 0) :=
  ⟨sampleInv, by decide, by decide, by decide,
    C5_drop_absent_unchanged sampleMem 1 9 sampleList 4 sampleInv (by decide) (by decide)
      (by decide)⟩

/-- Claim C8: on a set that satisfies the count/chain invariant, `drop` of a
non-empty value `v` present in it decreases `count` by exactly 1; if `v`
occurred exactly once, `find` for `v` afterwards returns the empty reference,
and if `v` occurred at least twice, `find` for `v` afterwards still returns `v`. -/
theorem C8_drop_then_find (m : Mem) (set v : Ptr) (l : List (Ptr × Ptr)) (fuel : Nat)
    (hinv : Inv m set l) (hv : v ≠ 0) (hmem : v ∈ objs l) (hf : l.length < fuel) :
    ∃ m', drop fuel m set v = .ok (m', v) ∧
      (∃ n, count m set = .ok (n + 1) ∧ count m' set = .ok n) ∧
      ((objs l).count v = 1 → find fuel m' set v = .ok 0) ∧
      (2 ≤ (objs l).count v → find fuel m' set v = .ok v) := by
  obtain ⟨m', hrun, _, hinv', _, _⟩ := drop_present hinv hv hf hmem
  have hlen := eraseFirst_length hmem
  have hcnt := count_eraseFirst_self hmem
  have hfind := @find_spec m' set v _ fuel hinv' hv (by omega)
  refine ⟨m', hrun, ⟨(eraseFirst v l).length, ?_, count_of_inv hinv'⟩, ?_, ?_⟩
  · rw [count_of_inv hinv, hlen]
  · intro h1
    have hnot : v ∉ objs (eraseFirst v l) := by
      intro hin
      have := List.count_pos_iff.2 hin
      omega
    rw [hfind, if_neg hnot]
  · intro h2
    have hin : v ∈ objs (eraseFirst v l) := List.count_pos_iff.1 (by omega)
    rw [hfind, if_pos hin]

/-- The theorem `C8_drop_then_find` on the sample memory, where `7` is stored twice. -/
theorem C8_drop_then_find_witness :
    Inv sampleMem 1 sampleList ∧ (7 : Ptr) ≠ 0 ∧ 7 ∈ objs sampleList ∧ sampleList.length < 4 ∧
    ∃ m', drop 4 sampleMem 1 7 = .ok (m', 7) ∧
      (∃ n, count sampleMem 1 = .ok (n + 1) ∧ count m' 1 = .ok n) ∧
      ((objs sampleList).count 7 = 1 → find 4 m' 1 7 = .ok 0) ∧
      (2 ≤ (objs sampleList).count 7 → find 4 m' 1 7 = .ok 7) :=
  ⟨sampleInv, by decide, by decide, by decide,
    C8_drop_then_find sampleMem 1 7 sampleList 4 sampleInv (by decide) (by decide)
      (by decide)⟩

/-- Claim C9: on a set that satisfies the count/chain invariant (stored
references non-empty) and whose head Element, at `a`, stores `v`, after
`drop` of `v` the head is the `next` link of the old head Element, that is
the Element that was second in the chain, and the rest of the chain is as
before; if the set held exactly one Element, the head is empty and `count`
is 0 afterwards. -/
theorem C9_drop_head (m : Mem) (set a v : Ptr) (l2 : List (Ptr × Ptr)) (fuel : Nat)
    (hinv : Inv m set ((a, v) :: l2)) (hne : ∀ o ∈ objs ((a, v) :: l2), o ≠ 0)
    (hf : l2.length + 1 < fuel) :
    ∃ m' e, m a = some (.element e) ∧ drop fuel m set v = .ok (m', v) ∧
      m' set = some (.set ⟨l2.length, e.next⟩) ∧ e.next = headOf l2 ∧
      Chain m' e.next l2 ∧
      (l2 = [] → m' set = some (.set ⟨0, 0⟩)) := by
  have hv : v ≠ 0 := hne v (by simp [objs])
  have hmem : v ∈ objs ((a, v) :: l2) := by simp [objs]
  obtain ⟨m', hrun, hset', hinv', _, _⟩ :=
    @drop_present m set v _ fuel hinv hv (by simpa using hf) hmem
  have her : eraseFirst v ((a, v) :: l2) = l2 := by simp [eraseFirst]
  rw [her] at hset' hinv'
  obtain ⟨_, s, _, _, _, hc⟩ := hinv
  obtain ⟨_, s', hs', _, _, hc'⟩ := hinv'
  rw [hset'] at hs'
  simp only [Option.some.injEq, Cell.set.injEq] at hs'
  subst hs'
  simp only at hc'
  refine ⟨m', ⟨v, headOf l2⟩, hc.2.2.1, hrun, ?_, rfl, hc', ?_⟩
  · simpa using hset'
  · intro hl2
    subst hl2
    simpa [headOf] using hset'

/-- The theorem `C9_drop_head` on the sample memory, whose head stores `7`. -/
theorem C9_drop_head_witness :
    Inv sampleMem 1 ((2, 7) :: [(3, 8), (4, 7)]) ∧
    (∀ o ∈ objs ((2, 7) :: [(3, 8), (4, 7)]), o ≠ 0) ∧
    [((3 : Ptr), (8 : Ptr)), (4, 7)].length + 1 < 4 ∧
    ∃ m' e, sampleMem 2 = some (.element e) ∧ drop 4 sampleMem 1 7 = .ok (m', 7) ∧
      m' 1 = some (.set ⟨[((3 : Ptr), (8 : Ptr)), (4, 7)].length, e.next⟩) ∧
      e.next = headOf [(3, 8), (4, 7)] ∧
      Chain m' e.next [(3, 8), (4, 7)] ∧
      ([((3 : Ptr), (8 : Ptr)), (4, 7)] = [] → m' 1 = some (.set ⟨0, 0⟩)) :=
  ⟨sampleInv, by decide, by decide,
    C9_drop_head sampleMem 1 2 7 [(3, 8), (4, 7)] 4 sampleInv (by decide) (by decide)⟩

/-- Claim C10: on a set that satisfies the count/chain invariant and for a
non-empty value `v`, the chain after `drop` of `v` is a subsequence of the
chain before it, as Elements and so as stored references: the surviving
Elements keep their relative order, and every reference other than `v` is
stored as many times as before. -/
theorem C10_drop_keeps_order (m : Mem) (set v : Ptr) (l : List (Ptr × Ptr)) (fuel : Nat)
    (hinv : Inv m set l) (hv : v ≠ 0) (hf : l.length < fuel) :
    ∃ m' r l', drop fuel m set v = .ok (m', r) ∧ Inv m' set l' ∧
      l'.Sublist l ∧ (objs l').Sublist (objs l) ∧
      ∀ w, w ≠ v → (objs l').count w = (objs l).count w := by
  by_cases hmem : v ∈ objs l
  · obtain ⟨m', hrun, _, hinv', _, _⟩ := drop_present hinv hv hf hmem
    exact ⟨m', v, eraseFirst v l, hrun, hinv', eraseFirst_sublist v l,
      (eraseFirst_sublist v l).map _, fun w hw => count_eraseFirst_ne hw l⟩
  · exact ⟨m, 0, l, drop_absent hinv hv hf hmem, hinv, List.Sublist.refl _,
      List.Sublist.refl _, fun _ _ => rfl⟩

/-- The theorem `C10_drop_keeps_order` on the sample memory, dropping `8`. -/
theorem C10_drop_keeps_order_witness :
    Inv sampleMem 1 sampleList ∧ (8 : Ptr) ≠ 0 ∧ sampleList.length < 4 ∧
    ∃ m' r l', drop 4 sampleMem 1 8 = .ok (m', r) ∧ Inv m' 1 l' ∧
      l'.Sublist sampleList ∧ (objs l').Sublist (objs sampleList) ∧
      ∀ w, w ≠ 8 → (objs l').count w = (objs sampleList).count w :=
  ⟨sampleInv, by decide, by decide,
    C10_drop_keeps_order sampleMem 1 8 sampleList 4 sampleInv (by decide) (by decide)⟩

/-! ## The contract of `add` -/

theorem segment_chain (n : Nat) :
    ∀ (k a : Nat), 2 ≤ a → a + k = n + 2 →
      Chain (fullMem n) (headOf (segment a k)) (segment a k) := by
  intro k
  induction k with
  | zero => intro a _ _; rfl
  | succ k ih =>
    intro a ha hk
    have hseg : segment a (k + 1) = (a, 7) :: segment (a + 1) k := by
      simp [segment, List.range'_succ]
    rw [hseg]
    have ha0 : a ≠ 0 := by omega
    have htail := ih (a + 1) (by omega) (by omega)
    refine ⟨rfl, ha0, ?_, htail⟩
    have hcell : fullMem n a = some (.element ⟨7, if a = n + 1 then 0 else a + 1⟩) := by
      have h1 : a ≠ 1 := by omega
      have h2 : 2 ≤ a ∧ a ≤ n + 1 := ⟨ha, by omega⟩
      simp [fullMem, h1, h2]
    rw [hcell]
    cases k with
    | zero =>
      have : a = n + 1 := by omega
      simp [segment, headOf, this]
    | succ j =>
      have : a ≠ n + 1 := by omega
      simp [segment, headOf, this, List.range'_succ]

theorem fullInv (n : Nat) (hn : n < UINT_MOD) : Inv (fullMem n) 1 (fullList n) := by
  refine ⟨by decide, ⟨n, if n = 0 then 0 else 2⟩, by simp [fullMem], ?_, hn, ?_⟩
  · simp [fullList, segment]
  · have h := segment_chain n n 2 (le_refl _) (by omega)
    have hh : headOf (segment 2 n) = if n = 0 then 0 else 2 := by
      cases n with
      | zero => rfl
      | succ j => simp [segment, headOf, List.range'_succ]
    rw [hh] at h
    exact h

/-- Claim C3 fails as stated: the set of `fullMem (2 ^ 31)` satisfies the
invariant with `count = 2 ^ 31 = INT_MAX + 1`, the value `7` is non-empty and
the address `2 ^ 31 + 2` is not live, yet `add` does not return: the `int`
counter of its traversal is incremented past `INT_MAX`. -/
theorem C3_add_overflow_counterexample :
    Inv (fullMem (2 ^ 31)) 1 (fullList (2 ^ 31)) ∧ (7 : Ptr) ≠ 0 ∧
    fullMem (2 ^ 31) (2 ^ 31 + 2) = none ∧
    add (fullMem (2 ^ 31)) (2 ^ 31 + 2) 1 7 = .error .undefined := by
  have hinv : Inv (fullMem (2 ^ 31)) 1 (fullList (2 ^ 31)) :=
    fullInv _ (by unfold UINT_MOD; norm_num)
  refine ⟨hinv, by decide, by simp [fullMem], add_overflow hinv (by decide) ?_⟩
  simp [fullList, segment, INT_MAX]

/-- Claim C3, amended: on a set that satisfies the count/chain invariant with
`count` at most `INT_MAX`, for a non-empty value `v`, present or not, when
the allocation succeeds (with an address `p` that was not live), `add`
returns `v`, increases `count` by exactly 1, and the chain is the old chain,
every Element at its address with its stored reference and in the same order,
followed by one new tail Element at `p` that stores `v`; memory other than the
set, the new Element and the old tail Element is unchanged. -/
theorem C3_add_appends (m : Mem) (p set v : Ptr) (l : List (Ptr × Ptr))
    (hinv : Inv m set l) (hv : v ≠ 0) (hp : p ≠ 0) (hfresh : m p = none)
    (hsmall : l.length ≤ INT_MAX) :
    ∃ m', add m p set v = .ok (m', v) ∧
      count m set = .ok l.length ∧ count m' set = .ok (l.length + 1) ∧
      Inv m' set (l ++ [(p, v)]) ∧
      ∀ q, q ≠ set → q ≠ p → q ≠ lastOf l → m' q = m q := by
  obtain ⟨m', hrun, _, hinv', hfr⟩ := add_spec hinv hv hp hfresh hsmall
  refine ⟨m', hrun, count_of_inv hinv, ?_, hinv', hfr⟩
  rw [count_of_inv hinv']
  simp

/-- The theorem `C3_add_appends` on the sample memory, adding `7`, which it
already stores twice, with the new Element at address `5`. -/
theorem C3_add_appends_witness :
    Inv sampleMem 1 sampleList ∧ (7 : Ptr) ≠ 0 ∧ (5 : Ptr) ≠ 0 ∧ sampleMem 5 = none ∧
    sampleList.length ≤ INT_MAX ∧
    ∃ m', add sampleMem 5 1 7 = .ok (m', 7) ∧
      count sampleMem 1 = .ok sampleList.length ∧
      count m' 1 = .ok (sampleList.length + 1) ∧
      Inv m' 1 (sampleList ++ [(5, 7)]) ∧
      ∀ q, q ≠ 1 → q ≠ 5 → q ≠ lastOf sampleList → m' q = sampleMem q :=
  ⟨sampleInv, by decide, by decide, by decide, by decide,
    C3_add_appends sampleMem 5 1 7 sampleList sampleInv (by decide) (by decide) (by decide)
      (by decide)⟩

/-- When `add` returns, the allocation succeeded and `count` was at most `INT_MAX`. -/
theorem add_ok_inv {m m' : Mem} {p set v r : Ptr} {l : List (Ptr × Ptr)}
    (hinv : Inv m set l) (hv : v ≠ 0) (hfresh : m p = none)
    (hrun : add m p set v = .ok (m', r)) :
    p ≠ 0 ∧ l.length ≤ INT_MAX := by
  have hsmall : l.length ≤ INT_MAX := by
    by_contra hbig
    rw [add_overflow hinv hv (by omega)] at hrun
    cases hrun
  refine ⟨?_, hsmall⟩
  intro hp0
  subst hp0
  obtain ⟨hset, s, hs, hcount, _, hc⟩ := hinv
  by_cases hpos : 0 < s.count
  · have hne : l ≠ [] := by
      intro h
      rw [h] at hcount
      simp at hcount
      omega
    obtain ⟨_, ot, ht⟩ := lastOf_spec hc hne
    have hloop : add_loop m s.count s.count 1 s.head = .ok (lastOf l) :=
      add_loop_chain hc hne (by omega) (by omega) (by omega)
    simp [add, hset, hv, loadSet, hs, hpos, add_tail, hloop, loadElement, ht, new] at hrun
  · simp [add, hset, hv, loadSet, hs, hpos, add_head, new] at hrun

/-- Claim C6: on a set that satisfies the count/chain invariant and for a
non-empty value `v`, after `add` of `v` has returned, `contains` of `v` is
true (1) and `find` of `v` returns `v`; and `add` does return when the
allocation succeeds and `count` is at most `INT_MAX`. -/
theorem C6_add_then_find (m : Mem) (p set v : Ptr) (l : List (Ptr × Ptr))
    (hinv : Inv m set l) (hv : v ≠ 0) (hfresh : m p = none) :
    (p ≠ 0 → l.length ≤ INT_MAX → ∃ m', add m p set v = .ok (m', v)) ∧
    ∀ m' r, add m p set v = .ok (m', r) → ∀ fuel, l.length + 1 < fuel →
      contains fuel m' set v = .ok 1 ∧ find fuel m' set v = .ok v := by
  constructor
  · intro hp hsmall
    obtain ⟨m', hrun, _⟩ := add_spec hinv hv hp hfresh hsmall
    exact ⟨m', hrun⟩
  · intro m' r hrun fuel hf
    obtain ⟨hp, hsmall⟩ := add_ok_inv hinv hv hfresh hrun
    obtain ⟨m1, hrun1, _, hinv1, _⟩ := add_spec hinv hv hp hfresh hsmall
    rw [hrun1] at hrun
    simp only [Except.ok.injEq, Prod.mk.injEq] at hrun
    obtain ⟨hm, _⟩ := hrun
    subst hm
    have hmem : v ∈ objs (l ++ [(p, v)]) := by simp [objs]
    have hfind := @find_spec m1 set v _ fuel hinv1 hv (by simpa using hf)
    rw [if_pos hmem] at hfind
    refine ⟨?_, hfind⟩
    simp [contains, hfind, hv]

/-- The theorem `C6_add_then_find` on the sample memory, adding `9` at address `5`. -/
theorem C6_add_then_find_witness :
    Inv sampleMem 1 sampleList ∧ (9 : Ptr) ≠ 0 ∧ sampleMem 5 = none ∧
    ((5 ≠ 0 → sampleList.length ≤ INT_MAX → ∃ m', add sampleMem 5 1 9 = .ok (m', 9)) ∧
     ∀ m' r, add sampleMem 5 1 9 = .ok (m', r) → ∀ fuel, sampleList.length + 1 < fuel →
      contains fuel m' 1 9 = .ok 1 ∧ find fuel m' 1 9 = .ok 9) :=
  ⟨sampleInv, by decide, by decide,
    C6_add_then_find sampleMem 5 1 9 sampleList sampleInv (by decide) (by decide)⟩

/-! ## Sequences of calls -/

theorem emptyInv {set : Ptr} (hset : set ≠ 0) : Inv (emptyMem set) set [] :=
  ⟨hset, ⟨0, 0⟩, by simp [emptyMem], rfl, by simp [UINT_MOD], rfl⟩

theorem inv_head_iff {m : Mem} {set : Ptr} {l : List (Ptr × Ptr)} (hinv : Inv m set l) :
    ∃ s, m set = some (.set s) ∧ (s.count = 0 ↔ s.head = 0) := by
  obtain ⟨_, s, hs, hcount, _, hc⟩ := hinv
  refine ⟨s, hs, ?_⟩
  rw [chain_head hc, headOf_eq_zero hc, hcount]
  exact List.length_eq_zero

theorem step_add_ok {fuel : Nat} {set p v r : Ptr} {m m' : Mem}
    (h : add m p set v = .ok (m', r)) : step fuel set m (.add p v) = .ok m' := by
  simp [step, h]

theorem step_drop_ok {fuel : Nat} {set v r : Ptr} {m m' : Mem}
    (h : drop fuel m set v = .ok (m', r)) : step fuel set m (.drop v) = .ok m' := by
  simp [step, h]

theorem run_cons_ok {fuel : Nat} {set : Ptr} {m m' : Mem} {c : Call} (cs : List Call)
    (h : step fuel set m c = .ok m') : run fuel set m (c :: cs) = run fuel set m' cs := by
  simp [run, h]

/-- An admissible sequence of calls runs to completion and keeps the invariant. -/
theorem run_admissible {fuel : Nat} {set : Ptr} :
    ∀ (calls : List Call) (m : Mem) (l : List (Ptr × Ptr)), Inv m set l →
      Admissible fuel set m calls → l.length + calls.length < fuel →
      ∃ m' l', run fuel set m calls = .ok m' ∧ Inv m' set l' ∧
        l'.length ≤ l.length + calls.length := by
  intro calls
  induction calls with
  | nil => intro m l hinv _ _; exact ⟨m, l, rfl, hinv, by simp⟩
  | cons c cs ih =>
    intro m l hinv hadm hf
    obtain ⟨hok, hrest⟩ := hadm
    simp only [List.length_cons] at hf
    cases c with
    | add p v =>
      obtain ⟨hv, hp, hfresh, n, hn, hsmall⟩ := hok
      rw [count_of_inv hinv] at hn
      simp only [Except.ok.injEq] at hn
      subst hn
      obtain ⟨m1, hadd, _, hinv1, _⟩ := add_spec hinv hv hp hfresh hsmall
      have hstep : step fuel set m (.add p v) = .ok m1 := by simp [step, hadd]
      obtain ⟨m', l', hrun, hinv', hlen⟩ :=
        ih m1 (l ++ [(p, v)]) hinv1 (hrest m1 hstep) (by simp; omega)
      refine ⟨m', l', ?_, hinv', ?_⟩
      · simp [run, hstep, hrun]
      · simp at hlen ⊢
        omega
    | drop v =>
      have hv : v ≠ 0 := hok
      by_cases hmem : v ∈ objs l
      · obtain ⟨m1, hdrop, _, hinv1, _, _⟩ :=
          @drop_present m set v _ fuel hinv hv (by omega) hmem
        have hstep : step fuel set m (.drop v) = .ok m1 := by simp [step, hdrop]
        have hlen1 := eraseFirst_length hmem
        obtain ⟨m', l', hrun, hinv', hlen⟩ :=
          ih m1 (eraseFirst v l) hinv1 (hrest m1 hstep) (by omega)
        refine ⟨m', l', ?_, hinv', ?_⟩
        · simp [run, hstep, hrun]
        · simp only [List.length_cons]
          omega
      · have hdrop := @drop_absent m set v _ fuel hinv hv (by omega) hmem
        have hstep : step fuel set m (.drop v) = .ok m := by simp [step, hdrop]
        obtain ⟨m', l', hrun, hinv', hlen⟩ := ih m l hinv (hrest m hstep) (by omega)
        refine ⟨m', l', ?_, hinv', ?_⟩
        · simp [run, hstep, hrun]
        · simp only [List.length_cons]
          omega

theorem freshOps_step {m m1 : Mem} {set p v : Ptr} {l ops : List (Ptr × Ptr)}
    (hinv : Inv m set l) (hfr : FreshOps m ((p, v) :: ops))
    (hframe : ∀ q, q ≠ set → q ≠ p → q ≠ lastOf l → m1 q = m q) : FreshOps m1 ops := by
  obtain ⟨hall, hnd⟩ := hfr
  simp only [addrs, List.map_cons, List.nodup_cons] at hnd
  obtain ⟨_, s, hs, _, _, hc⟩ := hinv
  refine ⟨?_, hnd.2⟩
  intro x hx
  obtain ⟨h1, h2, h3⟩ := hall x (List.mem_cons_of_mem _ hx)
  refine ⟨h1, h2, ?_⟩
  rw [hframe x.1 ?_ ?_ ?_]
  · exact h3
  · intro e
    rw [e, hs] at h3
    cases h3
  · intro e
    exact hnd.1 (e ▸ List.mem_map_of_mem Prod.fst hx)
  · intro e
    by_cases hne : l = []
    · rw [hne] at e
      exact h1 e
    · obtain ⟨_, ot, ht⟩ := lastOf_spec hc hne
      rw [e, ht] at h3
      cases h3

/-- A sequence of `add` calls that never starts from a `count` above `INT_MAX`
appends its Elements to the chain. -/
theorem run_adds {fuel : Nat} {set : Ptr} :
    ∀ (ops : List (Ptr × Ptr)) (m : Mem) (l : List (Ptr × Ptr)), Inv m set l →
      FreshOps m ops → l.length + ops.length ≤ INT_MAX + 1 →
      ∃ m', run fuel set m (adds ops) = .ok m' ∧ Inv m' set (l ++ ops) := by
  intro ops
  induction ops with
  | nil => intro m l hinv _ _; exact ⟨m, rfl, by simpa using hinv⟩
  | cons x ops ih =>
    intro m l hinv hfr hlen
    obtain ⟨p, v⟩ := x
    obtain ⟨hp, hv, hfresh⟩ := hfr.1 (p, v) (List.mem_cons_self _ _)
    simp only at hp hv hfresh
    simp only [List.length_cons] at hlen
    obtain ⟨m1, hadd, _, hinv1, hframe⟩ := add_spec hinv hv hp hfresh (by omega)
    have hstep : step fuel set m (.add p v) = .ok m1 := by simp [step, hadd]
    obtain ⟨m', hrun, hinv'⟩ :=
      ih m1 (l ++ [(p, v)]) hinv1 (freshOps_step hinv hfr hframe) (by simp; omega)
    refine ⟨m', ?_, by simpa using hinv'⟩
    simp [adds, run, hstep]
    exact hrun

/-- A sequence of `add` calls that takes `count` above `INT_MAX + 1` does not
return: the `add` that starts from `count = INT_MAX + 1` overflows its counter. -/
theorem run_adds_overflow {fuel : Nat} {set : Ptr} :
    ∀ (ops : List (Ptr × Ptr)) (m : Mem) (l : List (Ptr × Ptr)), Inv m set l →
      FreshOps m ops → l.length ≤ INT_MAX + 1 → INT_MAX + 1 < l.length + ops.length →
      run fuel set m (adds ops) = .error .undefined := by
  intro ops
  induction ops with
  | nil => intro m l _ _ h1 h2; simp at h2; omega
  | cons x ops ih =>
    intro m l hinv hfr h1 h2
    obtain ⟨p, v⟩ := x
    obtain ⟨hp, hv, hfresh⟩ := hfr.1 (p, v) (List.mem_cons_self _ _)
    simp only at hp hv hfresh
    simp only [List.length_cons] at h2
    by_cases hbig : INT_MAX < l.length
    · have hadd := add_overflow (p := p) hinv hv hbig
      simp [adds, run, step, hadd]
    · obtain ⟨m1, hadd, _, hinv1, hframe⟩ := add_spec hinv hv hp hfresh (by omega)
      have hstep : step fuel set m (.add p v) = .ok m1 := by simp [step, hadd]
      have hrec := ih m1 (l ++ [(p, v)]) hinv1 (freshOps_step hinv hfr hframe)
        (by simp; omega) (by simp; omega)
      simp [adds, run, hstep]
      exact hrec

theorem admissible_drops {fuel : Nat} {set : Ptr} :
    ∀ (vs : List Ptr) (m : Mem), (∀ v ∈ vs, v ≠ 0) →
      Admissible fuel set m (vs.map Call.drop) := by
  intro vs
  induction vs with
  | nil => intro m _; trivial
  | cons v vs ih =>
    intro m hvs
    exact ⟨hvs v (List.mem_cons_self _ _),
      fun m' _ => ih m' (fun w hw => hvs w (List.mem_cons_of_mem _ hw))⟩

theorem admissible_adds {fuel : Nat} {set : Ptr} {rest : List Call} :
    ∀ (ops : List (Ptr × Ptr)) (m : Mem) (l : List (Ptr × Ptr)), Inv m set l →
      FreshOps m ops → l.length + ops.length ≤ INT_MAX + 1 →
      (∀ m', Admissible fuel set m' rest) →
      Admissible fuel set m (adds ops ++ rest) := by
  intro ops
  induction ops with
  | nil => intro m l _ _ _ hrest; exact hrest m
  | cons x ops ih =>
    intro m l hinv hfr hlen hrest
    obtain ⟨p, v⟩ := x
    obtain ⟨hp, hv, hfresh⟩ := hfr.1 (p, v) (List.mem_cons_self _ _)
    simp only at hp hv hfresh
    simp only [List.length_cons] at hlen
    obtain ⟨m1, hadd, _, hinv1, hframe⟩ := add_spec hinv hv hp hfresh (by omega)
    refine ⟨⟨hv, hp, hfresh, l.length, count_of_inv hinv, by omega⟩, ?_⟩
    intro m' hstep
    have hm : m' = m1 := by
      simp [step, hadd] at hstep
      exact hstep.symm
    subst hm
    exact ih m' (l ++ [(p, v)]) hinv1 (freshOps_step hinv hfr hframe) (by simp; omega) hrest

theorem segment_length (a k : Nat) : (segment a k).length = k := by
  simp [segment]

theorem freshOps_segment {m : Mem} (a k : Nat) (ha : 0 < a)
    (hm : ∀ q, a ≤ q → m q = none) : FreshOps m (segment a k) := by
  refine ⟨?_, ?_⟩
  · intro x hx
    simp only [segment, List.mem_map, List.mem_range'_1] at hx
    obtain ⟨b, hb, rfl⟩ := hx
    exact ⟨Nat.ne_of_gt (Nat.lt_of_lt_of_le ha hb.1), by simp, hm b hb.1⟩
  · simp only [addrs, segment, List.map_map]
    have : (Prod.fst ∘ fun b : Nat => (b, (7 : Ptr))) = id := rfl
    rw [this, List.map_id]
    exact List.nodup_range' a k

/-- Claim C7 fails as stated: `2 ^ 31 + 1` calls of `add` with the non-empty
value `7` on a new empty set, `calloc` answering the addresses from `2` on,
do not leave `count = 2 ^ 31 + 1`: the last call starts from
`count = 2 ^ 31 = INT_MAX + 1` and overflows the `int` counter of its traversal. -/
theorem C7_adds_overflow_counterexample :
    run 0 1 (emptyMem 1) (adds (segment 2 (2 ^ 31 + 1))) = .error .undefined := by
  refine run_adds_overflow _ _ [] (emptyInv (by decide)) ?_ (by simp) ?_
  · refine freshOps_segment 2 _ (by decide) ?_
    intro q hq
    have : q ≠ 1 := by omega
    simp [emptyMem, this]
  · rw [segment_length]
    unfold INT_MAX
    simp only [List.length_nil]
    omega

/-- Claim C7, amended: for every sequence of at most `2 ^ 31 = INT_MAX + 1`
calls of `add` with non-empty values (repetitions allowed) on a new empty
set, the allocations succeeding with addresses that are not live, the calls
all return and `count` afterwards is the number of `add` calls performed. -/
theorem C7_count_after_adds (set : Ptr) (ops : List (Ptr × Ptr)) (fuel : Nat)
    (hset : set ≠ 0) (hfresh : FreshOps (emptyMem set) ops)
    (hlen : ops.length ≤ INT_MAX + 1) :
    ∃ m', run fuel set (emptyMem set) (adds ops) = .ok m' ∧
      count m' set = .ok (adds ops).length := by
  obtain ⟨m', hrun, hinv⟩ := run_adds ops (emptyMem set) [] (emptyInv hset) hfresh
    (by simpa using hlen)
  refine ⟨m', hrun, ?_⟩
  rw [count_of_inv hinv]
  simp [adds]

/-- The theorem `C7_count_after_adds` for three calls of `add`, the value `7`
given twice. -/
theorem C7_count_after_adds_witness :
    (1 : Ptr) ≠ 0 ∧ FreshOps (emptyMem 1) [(2, 7), (3, 8), (4, 7)] ∧
    [((2 : Ptr), (7 : Ptr)), (3, 8), (4, 7)].length ≤ INT_MAX + 1 ∧
    ∃ m', run 0 1 (emptyMem 1) (adds [(2, 7), (3, 8), (4, 7)]) = .ok m' ∧
      count m' 1 = .ok (adds [(2, 7), (3, 8), (4, 7)]).length :=
  ⟨by decide, ⟨by decide, by decide⟩, by decide,
    C7_count_after_adds 1 [(2, 7), (3, 8), (4, 7)] 0 (by decide) ⟨by decide, by decide⟩
      (by decide)⟩

/-- Claim C1 fails as stated: on a new empty set, `add` of `7`, `drop` of `7`
and then `2 ^ 31 + 1` calls of `add` of `7` (all arguments non-empty, `calloc`
answering the addresses from `2` on) do not end in a set whose `count` is the
length of its chain: the last `add` starts from `count = 2 ^ 31 = INT_MAX + 1`
and overflows the `int` counter of its traversal. -/
theorem C1_calls_overflow_counterexample :
    run 2 1 (emptyMem 1) (Call.add 2 7 :: Call.drop 7 :: adds (segment 3 (2 ^ 31 + 1))) =
      .error .undefined := by
  have h0 : Inv (emptyMem 1) 1 [] := emptyInv (by decide)
  obtain ⟨m1, hadd, _, hinv1, hfr1⟩ :=
    add_spec (p := 2) (v := 7) h0 (by decide) (by decide) (by simp [emptyMem]) (by simp)
  obtain ⟨m2, hdrop, _, hinv2, _, hfr2⟩ :=
    @drop_present m1 1 7 _ 2 hinv1 (by decide) (by simp) (by simp [objs])
  have hinv2' : Inv m2 1 [] := by simpa [eraseFirst] using hinv2
  have hfresh : FreshOps m2 (segment 3 (2 ^ 31 + 1)) := by
    refine freshOps_segment 3 _ (by decide) ?_
    intro q hq
    have hq1 : q ≠ 1 := by omega
    have hq2 : q ≠ 2 := by omega
    have hq0 : q ≠ 0 := by omega
    rw [hfr2 q hq1 (by simpa [addrs] using hq2), hfr1 q hq1 hq2 (by simpa [lastOf] using hq0)]
    simp [emptyMem, hq1]
  have hover := @run_adds_overflow 2 1 _ m2 [] hinv2' hfresh (by simp) (by
    rw [segment_length]
    unfold INT_MAX
    simp only [List.length_nil]
    omega)
  rw [run_cons_ok _ (step_add_ok hadd), run_cons_ok _ (step_drop_ok hdrop)]
  exact hover

/-- Claim C1, amended: starting from a new empty set, after every finite
sequence of `add` and `drop` calls with non-empty arguments in which each
allocation succeeds (with an address that is not live) and no `add` starts
from a `count` above `INT_MAX`, every call has returned, the stored `count`
is the number of Elements reachable from `head` by `next` links to the
terminal, `count` is 0 exactly if `head` is empty, and `count(set)` returns
the length of the chain. -/
theorem C1_invariant_after_calls (set : Ptr) (calls : List Call) (fuel : Nat)
    (hset : set ≠ 0) (hadm : Admissible fuel set (emptyMem set) calls)
    (hf : calls.length < fuel) :
    ∃ m' l s, run fuel set (emptyMem set) calls = .ok m' ∧
      m' set = some (.set s) ∧ Chain m' s.head l ∧ s.count = l.length ∧
      (s.count = 0 ↔ s.head = 0) ∧ count m' set = .ok l.length := by
  obtain ⟨m', l, hrun, hinv, _⟩ :=
    run_admissible calls (emptyMem set) [] (emptyInv hset) hadm (by simpa using hf)
  obtain ⟨s, hs, hiff⟩ := inv_head_iff hinv
  obtain ⟨_, s', hs', hcount, _, hc⟩ := hinv
  rw [hs] at hs'
  simp only [Option.some.injEq, Cell.set.injEq] at hs'
  subst hs'
  refine ⟨m', l, s, hrun, hs, hc, hcount, hiff, ?_⟩
  simp [count, hset, loadSet, hs, hcount]

/-- The theorem `C1_invariant_after_calls` for `add` of `7`, `8` and `7` and
then `drop` of `7`, `7` and `9`. -/
theorem C1_invariant_after_calls_witness :
    (1 : Ptr) ≠ 0 ∧
    Admissible 7 1 (emptyMem 1)
      (adds [(2, 7), (3, 8), (4, 7)] ++ [7, 7, 9].map Call.drop) ∧
    (adds [(2, 7), (3, 8), (4, 7)] ++ [7, 7, 9].map Call.drop).length < 7 ∧
    ∃ m' l s, run 7 1 (emptyMem 1)
        (adds [(2, 7), (3, 8), (4, 7)] ++ [7, 7, 9].map Call.drop) = .ok m' ∧
      m' 1 = some (.set s) ∧ Chain m' s.head l ∧ s.count = l.length ∧
      (s.count = 0 ↔ s.head = 0) ∧ count m' 1 = .ok l.length :=
  have hadm : Admissible 7 1 (emptyMem 1)
      (adds [(2, 7), (3, 8), (4, 7)] ++ [7, 7, 9].map Call.drop) :=
    admissible_adds _ _ [] (emptyInv (by decide)) ⟨by decide, by decide⟩ (by decide)
      (fun m' => admissible_drops _ m' (by decide))
  ⟨by decide, hadm, by decide, C1_invariant_after_calls 1 _ 7 (by decide) hadm (by decide)⟩

/-! ## Identity, `contains`, preconditions and `new` -/

theorem objectInv : Inv objectMem 1 [(2, 10)] :=
  ⟨by decide, ⟨1, 2⟩, rfl, rfl, by simp [UINT_MOD], by decide⟩

/-- Claim C11: lookup is by identity, not by contents.  On a set that
satisfies the invariant, for two distinct Objects `v` and `w` with the same
type tag and the same data, `v` stored in the chain and `w` not: `find` of `w`
returns the empty reference, `contains` of `w` is false (0), and `drop` of `w`
returns the empty reference and leaves the memory as it was, so that `find`
of `v` still returns `v`; the two Objects have equal contents and differ only
by identity. -/
theorem C11_lookup_by_identity (m : Mem) (set v w : Ptr) (o : Object)
    (l : List (Ptr × Ptr)) (fuel : Nat)
    (hinv : Inv m set l) (hv0 : v ≠ 0) (hw0 : w ≠ 0) (hvw : v ≠ w)
    (hv : m v = some (.object o)) (hw : m w = some (.object o))
    (hvin : v ∈ objs l) (hwout : w ∉ objs l) (hf : l.length < fuel) :
    m v = m w ∧ differ v w = 1 ∧
    find fuel m set w = .ok 0 ∧ contains fuel m set w = .ok 0 ∧
    drop fuel m set w = .ok (m, 0) ∧ find fuel m set v = .ok v := by
  have hfw := find_spec hinv hw0 hf
  rw [if_neg hwout] at hfw
  have hfv := find_spec hinv hv0 hf
  rw [if_pos hvin] at hfv
  refine ⟨by rw [hv, hw], by simp [differ, hvw], hfw, ?_, drop_absent hinv hw0 hf hwout, hfv⟩
  simp [contains, hfw]

/-- The theorem `C11_lookup_by_identity` on the memory `objectMem`, with the
twin Objects at `10` (stored) and `11` (not stored). -/
theorem C11_lookup_by_identity_witness :
    Inv objectMem 1 [(2, 10)] ∧ (10 : Ptr) ≠ 0 ∧ (11 : Ptr) ≠ 0 ∧ (10 : Ptr) ≠ 11 ∧
    objectMem 10 = some (.object ⟨.uinteger8, 20⟩) ∧
    objectMem 11 = some (.object ⟨.uinteger8, 20⟩) ∧
    10 ∈ objs [((2 : Ptr), (10 : Ptr))] ∧ 11 ∉ objs [((2 : Ptr), (10 : Ptr))] ∧
    [((2 : Ptr), (10 : Ptr))].length < 2 ∧
    (objectMem 10 = objectMem 11 ∧ differ 10 11 = 1 ∧
     find 2 objectMem 1 11 = .ok 0 ∧ contains 2 objectMem 1 11 = .ok 0 ∧
     drop 2 objectMem 1 11 = .ok (objectMem, 0) ∧ find 2 objectMem 1 10 = .ok 10) :=
  ⟨objectInv, by decide, by decide, by decide, rfl, rfl, by decide, by decide, by decide,
    C11_lookup_by_identity objectMem 1 10 11 ⟨.uinteger8, 20⟩ [(2, 10)] 2 objectInv
      (by decide) (by decide) (by decide) rfl rfl (by decide) (by decide) (by decide)⟩

/-- Claim C12: for every memory, set reference and value, `contains` returns
exactly when `find` does, fails exactly as `find` fails, and its result is
non-zero exactly if `find` returned a non-empty reference; so it agrees with
the wording "`find` succeeded" of the specification (`contains_spec`). -/
theorem C12_contains_iff_find (fuel : Nat) (m : Mem) (set v : Ptr) :
    (∀ r, find fuel m set v = .ok r →
      contains fuel m set v = .ok (if r ≠ 0 then 1 else 0)) ∧
    (∀ c, contains fuel m set v = .ok c →
      ∃ r, find fuel m set v = .ok r ∧ (c ≠ 0 ↔ r ≠ 0)) ∧
    (∀ f, contains fuel m set v = .error f ↔ find fuel m set v = .error f) ∧
    (∀ c, contains fuel m set v = .ok c →
      contains_spec fuel m set v = .ok (decide (c ≠ 0))) ∧
    (∀ b, contains_spec fuel m set v = .ok b →
      ∃ c, contains fuel m set v = .ok c ∧ (c ≠ 0 ↔ b = true)) := by
  cases hfind : find fuel m set v with
  | error f => simp [contains, contains_spec, hfind]
  | ok r =>
    by_cases hr : r = 0
    · simp [contains, contains_spec, hfind, hr]
    · simp [contains, contains_spec, hfind, hr]

/-- Claim C14 fails as stated: `differ` asserts nothing, so handed empty
references it returns an ordinary result, 0 for two empty references and 1
for an empty and a non-empty one. -/
theorem C14_differ_counterexample : differ 0 0 = 0 ∧ differ 0 5 = 1 := by
  constructor <;> decide

/-- Claim C14, amended: for `add`, `find`, `contains`, `drop` and `count`, on
every memory, a call whose Set argument or whose value argument is the empty
reference ends by a failed assertion, and so returns no result (`differ` has
no precondition). -/
theorem C14_empty_reference_asserts (fuel : Nat) (m : Mem) (p set v : Ptr)
    (h : set = 0 ∨ v = 0) :
    add m p set v = .error .assertion ∧ find fuel m set v = .error .assertion ∧
    contains fuel m set v = .error .assertion ∧ drop fuel m set v = .error .assertion ∧
    count m 0 = .error .assertion := by
  have hfind : find fuel m set v = .error .assertion := by
    unfold find
    rcases h with h | h
    · simp [h]
    · by_cases hs : set = 0 <;> simp [h, hs]
  refine ⟨?_, hfind, ?_, ?_, ?_⟩
  · unfold add
    rcases h with h | h
    · simp [h]
    · by_cases hs : set = 0 <;> simp [h, hs]
  · simp [contains, hfind]
  · simp [drop, hfind]
  · simp [count]

/-- The theorem `C14_empty_reference_asserts` on the sample memory, with an
empty value reference. -/
theorem C14_empty_reference_asserts_witness :
    ((1 : Ptr) = 0 ∨ (0 : Ptr) = 0) ∧
    (add sampleMem 5 1 0 = .error .assertion ∧ find 4 sampleMem 1 0 = .error .assertion ∧
     contains 4 sampleMem 1 0 = .error .assertion ∧
     drop 4 sampleMem 1 0 = .error .assertion ∧
     count sampleMem 0 = .error .assertion) :=
  ⟨Or.inr rfl, C14_empty_reference_asserts 4 sampleMem 5 1 0 (Or.inr rfl)⟩

/-- Claim C16: every instance produced by `new` (the allocation succeeding) is
zero-initialized: a new Set has `count = 0` and an empty `head`, a new Element
an empty stored reference and an empty `next` link, a new Object the tag
`none`, whose value is 0, and empty data; on a heap with nothing else, `new`
of a Set gives the new empty set `emptyMem`. -/
theorem C16_new_zero_initialized (m : Mem) (p : Ptr) (hp : p ≠ 0) :
    (∃ m', new m p .Set = .ok (m', p) ∧ m' p = some (.set ⟨0, 0⟩) ∧
      loadSet m' p = .ok ⟨0, 0⟩) ∧
    (∃ m', new m p .Element = .ok (m', p) ∧ m' p = some (.element ⟨0, 0⟩) ∧
      loadElement m' p = .ok ⟨0, 0⟩) ∧
    (∃ m', new m p .Object = .ok (m', p) ∧ m' p = some (.object ⟨types.none, 0⟩)) ∧
    types.none.toNat = 0 ∧
    new (fun _ => none) p .Set = .ok (emptyMem p, p) := by
  have hnew : ∀ d, new m p d = .ok (m.write p (some d.zero), p) := by
    intro d
    simp [new, hp]
  refine ⟨⟨_, hnew _, write_same _ _ _, ?_⟩, ⟨_, hnew _, write_same _ _ _, ?_⟩,
    ⟨_, hnew _, write_same _ _ _⟩, rfl, ?_⟩
  · simp [loadSet, Descriptor.zero]
  · simp [loadElement, Descriptor.zero]
  · simp only [new, hp, if_false]
    rfl

/-- The theorem `C16_new_zero_initialized` on the sample memory, at address `5`. -/
theorem C16_new_zero_initialized_witness :
    (5 : Ptr) ≠ 0 ∧
    ((∃ m', new sampleMem 5 .Set = .ok (m', 5) ∧ m' 5 = some (.set ⟨0, 0⟩) ∧
      loadSet m' 5 = .ok ⟨0, 0⟩) ∧
    (∃ m', new sampleMem 5 .Element = .ok (m', 5) ∧ m' 5 = some (.element ⟨0, 0⟩) ∧
      loadElement m' 5 = .ok ⟨0, 0⟩) ∧
    (∃ m', new sampleMem 5 .Object = .ok (m', 5) ∧
      m' 5 = some (.object ⟨types.none, 0⟩)) ∧
    types.none.toNat = 0 ∧
    new (fun _ => none) 5 .Set = .ok (emptyMem 5, 5)) :=
  ⟨by decide, C16_new_zero_initialized sampleMem 5 (by decide)⟩

/-! ## The scenario of the specification and the helpers of `drop` -/

/-- Claim C15: the scenario.  For distinct non-empty references `A`, `B`, `C`
(only `A ≠ B` and `B ≠ C` are used) and a new empty set, the allocations
succeeding: after `add` of `A`,
`B` and `A` again `count` is 3; `drop` of `A` returns `A` and `count` is 2; a
second `drop` of `A` returns `A` and `count` is 1; `find` of `B` then returns
`B`; `drop` of `C` returns the empty reference and `count` stays 1. -/
theorem C15_scenario (set A B C p1 p2 p3 : Ptr) (fuel : Nat)
    (hset : set ≠ 0) (hA : A ≠ 0) (hB : B ≠ 0) (hC : C ≠ 0)
    (hAB : A ≠ B) (hBC : B ≠ C)
    (hfresh : FreshOps (emptyMem set) [(p1, A), (p2, B), (p3, A)]) (hf : 3 < fuel) :
    ∃ m1 m2 m3 m4 m5,
      add (emptyMem set) p1 set A = .ok (m1, A) ∧ add m1 p2 set B = .ok (m2, B) ∧
      add m2 p3 set A = .ok (m3, A) ∧ count m3 set = .ok 3 ∧
      drop fuel m3 set A = .ok (m4, A) ∧ count m4 set = .ok 2 ∧
      drop fuel m4 set A = .ok (m5, A) ∧ count m5 set = .ok 1 ∧
      find fuel m5 set B = .ok B ∧
      drop fuel m5 set C = .ok (m5, 0) ∧ count m5 set = .ok 1 := by
  have h0 : Inv (emptyMem set) set [] := emptyInv hset
  have hsmall : ∀ n, n ≤ 3 → n ≤ INT_MAX := fun n hn => by unfold INT_MAX; omega
  obtain ⟨hp1, _, hn1⟩ := hfresh.1 (p1, A) (by simp)
  obtain ⟨m1, hadd1, _, hinv1, hfr1⟩ := add_spec h0 hA hp1 hn1 (hsmall _ (by simp))
  have hfresh1 := freshOps_step h0 hfresh hfr1
  obtain ⟨hp2, _, hn2⟩ := hfresh1.1 (p2, B) (by simp)
  obtain ⟨m2, hadd2, _, hinv2, hfr2⟩ := add_spec hinv1 hB hp2 hn2 (hsmall _ (by simp))
  have hfresh2 := freshOps_step hinv1 hfresh1 hfr2
  obtain ⟨hp3, _, hn3⟩ := hfresh2.1 (p3, A) (by simp)
  obtain ⟨m3, hadd3, _, hinv3, _⟩ := add_spec hinv2 hA hp3 hn3 (hsmall _ (by simp))
  simp only [List.nil_append, List.cons_append] at hinv3
  obtain ⟨m4, hdrop4, _, hinv4, _, _⟩ :=
    @drop_present m3 set A _ fuel hinv3 hA (by simpa using hf) (by simp [objs])
  have he4 : eraseFirst A [(p1, A), (p2, B), (p3, A)] = [(p2, B), (p3, A)] := by
    simp [eraseFirst]
  rw [he4] at hinv4
  obtain ⟨m5, hdrop5, _, hinv5, _, _⟩ :=
    @drop_present m4 set A _ fuel hinv4 hA (by simp; omega) (by simp [objs])
  have he5 : eraseFirst A [(p2, B), (p3, A)] = [(p2, B)] := by
    simp [eraseFirst, Ne.symm hAB]
  rw [he5] at hinv5
  have hfindB := @find_spec m5 set B _ fuel hinv5 hB (by simp; omega)
  rw [if_pos (by simp [objs])] at hfindB
  have hdropC := @drop_absent m5 set C _ fuel hinv5 hC (by simp; omega)
    (by simp [objs, Ne.symm hBC])
  exact ⟨m1, m2, m3, m4, m5, hadd1, hadd2, hadd3, count_of_inv hinv3, hdrop4,
    count_of_inv hinv4, hdrop5, count_of_inv hinv5, hfindB, hdropC, count_of_inv hinv5⟩

/-- The theorem `C15_scenario` with the set at `1`, `A = 7`, `B = 8`, `C = 9`
and the Elements at `2`, `3` and `4`. -/
theorem C15_scenario_witness :
    (1 : Ptr) ≠ 0 ∧ (7 : Ptr) ≠ 0 ∧ (8 : Ptr) ≠ 0 ∧ (9 : Ptr) ≠ 0 ∧
    (7 : Ptr) ≠ 8 ∧ (8 : Ptr) ≠ 9 ∧
    FreshOps (emptyMem 1) [(2, 7), (3, 8), (4, 7)] ∧ 3 < 4 ∧
    ∃ m1 m2 m3 m4 m5,
      add (emptyMem 1) 2 1 7 = .ok (m1, 7) ∧ add m1 3 1 8 = .ok (m2, 8) ∧
      add m2 4 1 7 = .ok (m3, 7) ∧ count m3 1 = .ok 3 ∧
      drop 4 m3 1 7 = .ok (m4, 7) ∧ count m4 1 = .ok 2 ∧
      drop 4 m4 1 7 = .ok (m5, 7) ∧ count m5 1 = .ok 1 ∧
      find 4 m5 1 8 = .ok 8 ∧
      drop 4 m5 1 9 = .ok (m5, 0) ∧ count m5 1 = .ok 1 :=
  ⟨by decide, by decide, by decide, by decide, by decide, by decide,
    ⟨by decide, by decide⟩, by decide,
    C15_scenario 1 7 8 9 2 3 4 4 (by decide) (by decide) (by decide) (by decide)
      (by decide) (by decide) ⟨by decide, by decide⟩ (by decide)⟩

theorem lastOf_cons (x : Ptr × Ptr) (l : List (Ptr × Ptr)) :
    lastOf (x :: l) = if l = [] then x.1 else lastOf l := by
  obtain ⟨b, o⟩ := x
  cases l with
  | nil => simp [lastOf]
  | cons y l => simp [lastOf]

theorem firstAddr_split {v a : Ptr} {l1 l2 : List (Ptr × Ptr)} (h : v ∉ objs l1) :
    firstAddr v (l1 ++ (a, v) :: l2) = a := by
  induction l1 with
  | nil => simp [firstAddr]
  | cons x l1 ih =>
    obtain ⟨b, o⟩ := x
    simp only [objs, List.map_cons, List.mem_cons, not_or] at h
    have ho : ¬ o = v := fun e => h.1 e.symm
    simp only [List.cons_append, firstAddr, ho, if_false]
    exact ih h.2

theorem priorAddr_split {v a : Ptr} {l1 l2 : List (Ptr × Ptr)} (h : v ∉ objs l1) :
    ∀ last, priorAddr v last (l1 ++ (a, v) :: l2) = if l1 = [] then last else lastOf l1 := by
  induction l1 with
  | nil => intro last; simp [priorAddr]
  | cons x l1 ih =>
    intro last
    obtain ⟨b, o⟩ := x
    simp only [objs, List.map_cons, List.mem_cons, not_or] at h
    have ho : ¬ o = v := fun e => h.1 e.symm
    have hstep : priorAddr v last ((b, o) :: l1 ++ (a, v) :: l2) =
        priorAddr v b (l1 ++ (a, v) :: l2) := by
      simp only [List.cons_append, priorAddr, ho, if_false]
      rfl
    rw [hstep, ih h.2 b, lastOf_cons]
    simp

theorem chain_link {m : Mem} {a v : Ptr} {l1 l2 : List (Ptr × Ptr)} :
    ∀ {p : Ptr}, Chain m p (l1 ++ (a, v) :: l2) → l1 ≠ [] →
      lastOf l1 ≠ 0 ∧ ∃ o, m (lastOf l1) = some (.element ⟨o, a⟩) := by
  induction l1 with
  | nil => intro p _ hne; exact absurd rfl hne
  | cons x l1 ih =>
    intro p hc _
    obtain ⟨b, o⟩ := x
    obtain ⟨_, hb, hcell, htail⟩ := hc
    cases l1 with
    | nil => exact ⟨by simpa [lastOf] using hb, o, by simpa [lastOf, headOf] using hcell⟩
    | cons y l1 =>
      have := ih htail (by simp)
      simpa [lastOf] using this

/-- Claim C17: on a set that satisfies the invariant, for a non-empty value
`v`.  If `v` occurs, with `(a, v)` its first Element in head-to-tail order
(the listing is `l1 ++ (a, v) :: l2` and no Element of `l1` stores `v`), then
`find_element` returns `a` and `find_prior_element` returns the last Element
of `l1`: the empty reference when `a` is the head, and otherwise an Element
whose `next` link is `a`, the Element `drop` removes.  If `v` does not occur,
both helpers return the empty reference. -/
theorem C17_helpers_first_match (m : Mem) (set v : Ptr) (l : List (Ptr × Ptr)) (fuel : Nat)
    (hinv : Inv m set l) (hv : v ≠ 0) (hf : l.length < fuel) :
    (∀ l1 a l2, l = l1 ++ (a, v) :: l2 → v ∉ objs l1 →
      find_element fuel m set v = .ok a ∧
      find_prior_element fuel m set v = .ok (lastOf l1) ∧
      (l1 = [] → lastOf l1 = 0 ∧ ∃ s, m set = some (.set s) ∧ s.head = a) ∧
      (l1 ≠ [] → lastOf l1 ≠ 0 ∧ ∃ o, m (lastOf l1) = some (.element ⟨o, a⟩))) ∧
    (v ∉ objs l →
      find_element fuel m set v = .ok 0 ∧ find_prior_element fuel m set v = .ok 0) := by
  have helem := find_element_spec hinv hv hf
  have hprior := find_prior_element_spec hinv hv hf
  obtain ⟨_, s, hs, _, _, hc⟩ := hinv
  constructor
  · intro l1 a l2 hl hl1
    subst hl
    have hfa : firstAddr v (l1 ++ (a, v) :: l2) = a := firstAddr_split hl1
    have ha : a ≠ 0 := chain_addr_ne_zero hc a (by simp [addrs])
    rw [hfa] at helem hprior
    rw [if_neg ha, priorAddr_split hl1 0] at hprior
    refine ⟨helem, ?_, ?_, fun hne => chain_link hc hne⟩
    · rw [hprior]
      by_cases hnil : l1 = []
      · simp [hnil, lastOf]
      · simp [hnil]
    · intro hnil
      subst hnil
      exact ⟨rfl, s, hs, hc.1⟩
  · intro hout
    rw [firstAddr_absent hout] at helem hprior
    exact ⟨helem, by simpa using hprior⟩

/-- The theorem `C17_helpers_first_match` on the sample memory, for `8`,
stored by the Element at `3`, behind the one at `2`. -/
theorem C17_helpers_first_match_witness :
    Inv sampleMem 1 sampleList ∧ (8 : Ptr) ≠ 0 ∧ sampleList.length < 4 ∧
    ((∀ l1 a l2, sampleList = l1 ++ (a, 8) :: l2 → 8 ∉ objs l1 →
      find_element 4 sampleMem 1 8 = .ok a ∧
      find_prior_element 4 sampleMem 1 8 = .ok (lastOf l1) ∧
      (l1 = [] → lastOf l1 = 0 ∧ ∃ s, sampleMem 1 = some (.set s) ∧ s.head = a) ∧
      (l1 ≠ [] → lastOf l1 ≠ 0 ∧ ∃ o, sampleMem (lastOf l1) = some (.element ⟨o, a⟩))) ∧
    (8 ∉ objs sampleList →
      find_element 4 sampleMem 1 8 = .ok 0 ∧ find_prior_element 4 sampleMem 1 8 = .ok 0)) :=
  ⟨sampleInv, by decide, by decide,
    C17_helpers_first_match sampleMem 1 8 sampleList 4 sampleInv (by decide) (by decide)⟩

/-! ## Assertions, and `add` followed by `drop` -/

theorem add_frame_nil {m m' : Mem} {p set v r : Ptr} (hinv : Inv m set [])
    (hv : v ≠ 0) (hp : p ≠ 0) (hfresh : m p = none)
    (hrun : add m p set v = .ok (m', r)) : ∀ q, q ≠ set → q ≠ p → m' q = m q := by
  obtain ⟨hset, s, hs, hcount, _, _⟩ := hinv
  obtain ⟨n, hd⟩ := s
  simp only [List.length_nil] at hcount
  subst hcount
  have hsp : set ≠ p := fun e => by rw [e, hfresh] at hs; cases hs
  have h1 : UINT_MOD = 4294967296 := rfl
  simp [add, hset, hv, loadSet, hs, add_head, new, hp, Descriptor.zero, storeHead,
    Mem.write, hsp, Ne.symm hsp, storeObject, incrCount, storeCount, h1] at hrun
  intro q hqs hqp
  rw [← hrun.1, write_other _ _ _ _ hqs, write_other _ _ _ _ hqp, write_other _ _ _ _ hqs,
    write_other _ _ _ _ hqp]

theorem eraseFirst_append_absent {v p : Ptr} {l : List (Ptr × Ptr)} (h : v ∉ objs l) :
    eraseFirst v (l ++ [(p, v)]) = l := by
  induction l with
  | nil => simp [eraseFirst]
  | cons x l ih =>
    obtain ⟨b, o⟩ := x
    simp only [objs, List.map_cons, List.mem_cons, not_or] at h
    have ho : ¬ o = v := fun e => h.1 e.symm
    simp only [List.cons_append, eraseFirst, ho, if_false]
    exact congrArg _ (ih h.2)

theorem chain_cells_eq {m m' : Mem} {l : List (Ptr × Ptr)} :
    ∀ {p p' : Ptr}, Chain m p l → Chain m' p' l → ∀ a ∈ addrs l, m a = m' a := by
  induction l with
  | nil => intro p p' _ _ a ha; simp [addrs] at ha
  | cons x l ih =>
    intro p p' hc hc' a ha
    obtain ⟨b, o⟩ := x
    simp only [addrs, List.map_cons, List.mem_cons] at ha
    rcases ha with rfl | ha
    · rw [hc.2.2.1, hc'.2.2.1]
    · exact ih hc.2.2.2 hc'.2.2.2 a ha

/-- Claim C19: on a set that satisfies the invariant, for a non-empty value
`v` that does not occur in it, `add` of `v` followed by `drop` of `v`
restores the set: once `add` has returned, `drop` returns `v`, and `count`
and the chain (so the head-to-tail sequence of stored references) are those
from before the `add`; the whole memory is again the one before the `add`.
And `add` does return when the allocation succeeds and `count` is at most
`INT_MAX`. -/
theorem C19_add_then_drop_restores (m : Mem) (p set v : Ptr) (l : List (Ptr × Ptr))
    (hinv : Inv m set l) (hv : v ≠ 0) (hfresh : m p = none) (hout : v ∉ objs l) :
    (p ≠ 0 → l.length ≤ INT_MAX → ∃ m1, add m p set v = .ok (m1, v)) ∧
    ∀ m1 r, add m p set v = .ok (m1, r) → ∀ fuel, l.length + 1 < fuel →
      ∃ m2, drop fuel m1 set v = .ok (m2, v) ∧ Inv m2 set l ∧
        count m2 set = count m set ∧ m2 = m := by
  constructor
  · intro hp hsmall
    obtain ⟨m', hrun, _⟩ := add_spec hinv hv hp hfresh hsmall
    exact ⟨m', hrun⟩
  · intro m1 r hrun fuel hf
    obtain ⟨hp, hsmall⟩ := add_ok_inv hinv hv hfresh hrun
    obtain ⟨m1', hrun1, _, hinv1, hfr1⟩ := add_spec hinv hv hp hfresh hsmall
    have hm : m1' = m1 := by
      rw [hrun1] at hrun
      simp only [Except.ok.injEq, Prod.mk.injEq] at hrun
      exact hrun.1
    subst hm
    obtain ⟨m2, hdrop, hset2, hinv2, hfree, hfr2⟩ :=
      @drop_present m1' set v _ fuel hinv1 hv (by simpa using hf) (by simp [objs])
    have her : eraseFirst v (l ++ [(p, v)]) = l := eraseFirst_append_absent hout
    have hfa : firstAddr v (l ++ [(p, v)]) = p := firstAddr_split hout
    rw [her] at hset2 hinv2
    rw [hfa] at hfree
    refine ⟨m2, hdrop, hinv2, ?_, ?_⟩
    · rw [count_of_inv hinv2, count_of_inv hinv]
    · funext q
      obtain ⟨_, s, hs, hcount, _, hc⟩ := hinv
      obtain ⟨_, s2, hs2, _, _, hc2⟩ := hinv2
      by_cases hqs : q = set
      · subst hqs
        rw [hset2, hs]
        obtain ⟨n, hd⟩ := s
        simp only at hcount hc
        rw [hcount, chain_head hc]
        simp
      · by_cases hqp : q = p
        · subst hqp
          rw [hfree, hfresh]
        · by_cases hql : q ∈ addrs l
          · exact chain_cells_eq hc2 hc q hql
          · rw [hfr2 q hqs (by
              simp only [addrs, List.map_append, List.mem_append, not_or, List.map_cons,
                List.map_nil, List.mem_singleton]
              exact ⟨hql, hqp⟩)]
            by_cases hne : l = []
            · subst hne
              exact add_frame_nil ⟨by assumption, ⟨s, hs, hcount, by assumption, hc⟩⟩
                hv hp hfresh hrun1 q hqs hqp
            · exact hfr1 q hqs hqp (fun e => hql (e ▸ (lastOf_spec hc hne).1))

/-- The theorem `C19_add_then_drop_restores` on the sample memory, adding and
dropping `9` with the new Element at `5`. -/
theorem C19_add_then_drop_restores_witness :
    Inv sampleMem 1 sampleList ∧ (9 : Ptr) ≠ 0 ∧ sampleMem 5 = none ∧
    9 ∉ objs sampleList ∧
    ((5 ≠ 0 → sampleList.length ≤ INT_MAX → ∃ m1, add sampleMem 5 1 9 = .ok (m1, 9)) ∧
    ∀ m1 r, add sampleMem 5 1 9 = .ok (m1, r) → ∀ fuel, sampleList.length + 1 < fuel →
      ∃ m2, drop fuel m1 1 9 = .ok (m2, 9) ∧ Inv m2 1 sampleList ∧
        count m2 1 = count sampleMem 1 ∧ m2 = sampleMem) :=
  ⟨sampleInv, by decide, by decide, by decide,
    C19_add_then_drop_restores sampleMem 5 1 9 sampleList sampleInv (by decide) (by decide)
      (by decide)⟩

/-! ## Failure and the memory left by a call -/

theorem add_tail_at_agrees (m : Mem) (p set v : Ptr) (s : Set) :
    returned (add_tail_at m p set v s) = add_tail m p set v s := by
  unfold add_tail_at add_tail
  repeat' split
  all_goals simp_all [returned]

theorem add_head_at_agrees (m : Mem) (p set v : Ptr) :
    returned (add_head_at m p set v) = add_head m p set v := by
  unfold add_head_at add_head
  repeat' split
  all_goals simp_all [returned]

theorem add_at_agrees (m : Mem) (p set v : Ptr) :
    returned (add_at m p set v) = add m p set v := by
  unfold add_at add
  repeat' split
  all_goals first
    | exact add_tail_at_agrees _ _ _ _ _
    | exact add_head_at_agrees _ _ _ _
    | simp_all [returned]

theorem drop_unlink_at_agrees (m : Mem) (set prior element : Ptr) :
    returned (drop_unlink_at m set prior element) =
      (drop_unlink m set prior element).map (fun m' => (m', ())) := by
  unfold drop_unlink_at drop_unlink
  repeat' split
  all_goals simp_all [returned, Except.map]

theorem drop_at_agrees (fuel : Nat) (m : Mem) (set v : Ptr) :
    returned (drop_at fuel m set v) = drop fuel m set v := by
  unfold drop_at drop
  cases hfind : find fuel m set v with
  | error f => simp [returned]
  | ok object =>
    by_cases ho : object = 0
    · simp [ho, returned]
    · cases hprior : find_prior_element fuel m set v with
      | error f => simp [ho, returned, hprior]
      | ok prior =>
        cases helem : find_element fuel m set object with
        | error f => simp [ho, returned, helem]
        | ok element =>
          have hu := drop_unlink_at_agrees m set prior element
          rcases hat : drop_unlink_at m set prior element with ⟨m1, r1⟩
          rw [hat] at hu
          cases hun : drop_unlink m set prior element with
          | error f =>
            rw [hun] at hu
            cases r1 with
            | error g =>
              simp only [returned, Except.map, Except.error.injEq] at hu
              simp [ho, returned, hu, helem, hat, hun]
            | ok u => simp [returned, Except.map] at hu
          | ok m2 =>
            rw [hun] at hu
            cases r1 with
            | error g => simp [returned, Except.map] at hu
            | ok u =>
              simp only [returned, Except.map, Except.ok.injEq, Prod.mk.injEq] at hu
              obtain ⟨hm, _⟩ := hu
              subst hm
              cases hdec : decrCount m1 set with
              | error f => simp [ho, returned, helem, hat, hun, hdec]
              | ok m3 => simp [ho, returned, helem, hat, hun, hdec]

theorem returned_ok {α : Type} {x : Mem × Except Fault α} {m : Mem} {r : α}
    (h : returned x = .ok (m, r)) : x = (m, .ok r) := by
  obtain ⟨m1, r1⟩ := x
  cases r1 with
  | error f => simp [returned] at h
  | ok a =>
    simp only [returned, Except.ok.injEq, Prod.mk.injEq] at h
    rw [h.1, h.2]

theorem returned_error {α : Type} {x : Mem × Except Fault α} {f : Fault}
    (h : returned x = .error f) : x.2 = .error f := by
  obtain ⟨m1, r1⟩ := x
  cases r1 with
  | error g =>
    simp only [returned, Except.error.injEq] at h
    rw [h]
  | ok a => simp [returned] at h

theorem find_empty_reference (fuel : Nat) (m : Mem) {s v : Ptr} (h : s = 0 ∨ v = 0) :
    find fuel m s v = .error .assertion := by
  unfold find
  rcases h with h | h
  · simp [h]
  · by_cases hs : s = 0 <;> simp [h, hs]

theorem add_at_empty_reference (m : Mem) (p : Ptr) {s v : Ptr} (h : s = 0 ∨ v = 0) :
    add_at m p s v = (m, .error .assertion) := by
  unfold add_at
  rcases h with h | h
  · simp [h]
  · by_cases hs : s = 0 <;> simp [h, hs]

theorem drop_at_empty_reference (fuel : Nat) (m : Mem) {s v : Ptr} (h : s = 0 ∨ v = 0) :
    drop_at fuel m s v = (m, .error .assertion) := by
  simp [drop_at, find_empty_reference fuel m h]

/-- Claim C13 fails as stated: the set of `fullMem (2 ^ 31)` satisfies the
invariant, neither the set reference `1` nor the value `7` is empty, and yet
`add` does not run to completion: it ends in the overflow of the `int`
counter of its traversal. -/
theorem C13_add_incomplete_counterexample :
    Inv (fullMem (2 ^ 31)) 1 (fullList (2 ^ 31)) ∧ (1 : Ptr) ≠ 0 ∧ (7 : Ptr) ≠ 0 ∧
    (add_at (fullMem (2 ^ 31)) (2 ^ 31 + 2) 1 7).2 = .error .undefined := by
  have hinv : Inv (fullMem (2 ^ 31)) 1 (fullList (2 ^ 31)) :=
    fullInv _ (by unfold UINT_MOD; norm_num)
  refine ⟨hinv, by decide, by decide, returned_error ?_⟩
  rw [add_at_agrees]
  refine add_overflow hinv (by decide) ?_
  show INT_MAX < (segment 2 (2 ^ 31)).length
  rw [segment_length]
  unfold INT_MAX
  omega

/-- A call of `add` with non-empty references that fails, by allocation
failure or by overflow of the counter, fails before its first store. -/
theorem add_at_failure_mem {m : Mem} {p set v : Ptr} {l : List (Ptr × Ptr)}
    (hinv : Inv m set l) (hv : v ≠ 0) (hfresh : m p = none) :
    ∀ f, (add_at m p set v).2 = .error f → (add_at m p set v).1 = m := by
  intro f hfail
  by_cases hsmall : l.length ≤ INT_MAX
  · by_cases hp : p = 0
    · subst hp
      obtain ⟨hset, s, hs, hcount, _, hc⟩ := hinv
      by_cases hpos : 0 < s.count
      · have hne : l ≠ [] := by
          intro h
          rw [h] at hcount
          simp at hcount
          omega
        obtain ⟨_, ot, ht⟩ := lastOf_spec hc hne
        have hloop : add_loop m s.count s.count 1 s.head = .ok (lastOf l) :=
          add_loop_chain hc hne (by omega) (by omega) (by omega)
        simp [add_at, hset, hv, loadSet, hs, hpos, add_tail_at, hloop, loadElement, ht, new]
      · simp [add_at, hset, hv, loadSet, hs, hpos, add_head_at, new]
    · obtain ⟨m1, hadd, _⟩ := add_spec hinv hv hp hfresh hsmall
      have hadd' : add_at m p set v = (m1, .ok v) :=
        returned_ok (by rw [add_at_agrees]; exact hadd)
      simp [hadd'] at hfail
  · obtain ⟨hset, s, hs, hcount, _, hc⟩ := hinv
    have hne : l ≠ [] := by
      intro h
      rw [h] at hsmall
      simp at hsmall
    have hpos : 0 < s.count := by
      rw [hcount]
      exact List.length_pos.2 hne
    have hloop : add_loop m s.count s.count 1 s.head = .error .undefined :=
      add_loop_overflow hc hne (by omega) (by unfold INT_MAX; omega) (by omega) (by omega)
    simp [add_at, hset, hv, loadSet, hs, hpos, add_tail_at, hloop]

/-- Claim C13, amended: on a set that satisfies the invariant, for a call with
a set reference that is empty or this set and with any value reference.
For `add`, with `count` at most `INT_MAX` and the allocation succeeding, and
for `drop` on every such set: the call ends by a failed assertion exactly if
the set reference or the value reference is empty, and otherwise it returns.
For both, whenever the call fails, the memory at that moment is the memory
before the call: no field of the Set and no Element was modified (for `add`
also when it fails by allocation failure or by overflow of its counter). -/
theorem C13_fails_iff_empty_reference (m : Mem) (p set s v : Ptr) (l : List (Ptr × Ptr))
    (fuel : Nat) (hinv : Inv m set l) (hs : s = 0 ∨ s = set) (hf : l.length < fuel) :
    ((p ≠ 0 → m p = none → l.length ≤ INT_MAX →
        ((add_at m p s v).2 = .error .assertion ↔ (s = 0 ∨ v = 0)) ∧
        (s ≠ 0 → v ≠ 0 → ∃ m', add_at m p s v = (m', .ok v))) ∧
      (m p = none → ∀ f, (add_at m p s v).2 = .error f → (add_at m p s v).1 = m)) ∧
    (((drop_at fuel m s v).2 = .error .assertion ↔ (s = 0 ∨ v = 0)) ∧
      (∀ f, (drop_at fuel m s v).2 = .error f → (drop_at fuel m s v).1 = m) ∧
      (s ≠ 0 → v ≠ 0 → ∃ m' r, drop_at fuel m s v = (m', .ok r))) := by
  by_cases hpre : s = 0 ∨ v = 0
  · have hadd := add_at_empty_reference m p hpre
    have hdrop := drop_at_empty_reference fuel m hpre
    have hno : s ≠ 0 → v ≠ 0 → False := by
      intro h1 h2
      rcases hpre with h | h
      · exact h1 h
      · exact h2 h
    refine ⟨⟨fun _ _ _ => ⟨?_, fun h1 h2 => (hno h1 h2).elim⟩, fun _ f _ => by rw [hadd]⟩,
      ⟨?_, fun f _ => by rw [hdrop], fun h1 h2 => (hno h1 h2).elim⟩⟩
    · simp [hadd, hpre]
    · simp [hdrop, hpre]
  · have hs0 : s ≠ 0 := fun e => hpre (Or.inl e)
    have hv0 : v ≠ 0 := fun e => hpre (Or.inr e)
    have hss : s = set := by
      rcases hs with h | h
      · exact absurd h hs0
      · exact h
    subst hss
    have hdrop : ∃ m2 r, drop_at fuel m s v = (m2, .ok r) := by
      by_cases hmem : v ∈ objs l
      · obtain ⟨m2, hrun, _⟩ := drop_present hinv hv0 hf hmem
        exact ⟨m2, v, returned_ok (by rw [drop_at_agrees]; exact hrun)⟩
      · exact ⟨m, 0, returned_ok (by rw [drop_at_agrees]; exact drop_absent hinv hv0 hf hmem)⟩
    obtain ⟨m2, r, hdrop'⟩ := hdrop
    refine ⟨⟨?_, fun hfresh => add_at_failure_mem hinv hv0 hfresh⟩,
      ⟨?_, ?_, fun _ _ => ⟨m2, r, hdrop'⟩⟩⟩
    · intro hp hfresh hsmall
      obtain ⟨m1, hadd, _⟩ := add_spec hinv hv0 hp hfresh hsmall
      have hadd' : add_at m p s v = (m1, .ok v) :=
        returned_ok (by rw [add_at_agrees]; exact hadd)
      exact ⟨by simp [hadd', hpre], fun _ _ => ⟨m1, hadd'⟩⟩
    · simp [hdrop', hpre]
    · intro f hfail
      simp [hdrop'] at hfail

/-- The theorem `C13_fails_iff_empty_reference` on the sample memory, with the
set reference `1`, an empty value reference and the new Element at `5`. -/
theorem C13_fails_iff_empty_reference_witness :
    Inv sampleMem 1 sampleList ∧ ((1 : Ptr) = 0 ∨ (1 : Ptr) = 1) ∧ sampleList.length < 4 ∧
    ((((5 : Ptr) ≠ 0 → sampleMem 5 = none → sampleList.length ≤ INT_MAX →
        ((add_at sampleMem 5 1 0).2 = .error .assertion ↔ ((1 : Ptr) = 0 ∨ (0 : Ptr) = 0)) ∧
        ((1 : Ptr) ≠ 0 → (0 : Ptr) ≠ 0 → ∃ m', add_at sampleMem 5 1 0 = (m', .ok 0))) ∧
      (sampleMem 5 = none → ∀ f, (add_at sampleMem 5 1 0).2 = .error f →
        (add_at sampleMem 5 1 0).1 = sampleMem)) ∧
    (((drop_at 4 sampleMem 1 0).2 = .error .assertion ↔ ((1 : Ptr) = 0 ∨ (0 : Ptr) = 0)) ∧
      (∀ f, (drop_at 4 sampleMem 1 0).2 = .error f →
        (drop_at 4 sampleMem 1 0).1 = sampleMem) ∧
      ((1 : Ptr) ≠ 0 → (0 : Ptr) ≠ 0 → ∃ m' r, drop_at 4 sampleMem 1 0 = (m', .ok r)))) :=
  ⟨sampleInv, Or.inr rfl, by decide,
    C13_fails_iff_empty_reference sampleMem 5 1 1 0 sampleList 4 sampleInv (Or.inr rfl)
      (by decide)⟩

theorem find_loop_at_eq (object : Ptr) :
    ∀ (fuel : Nat) (m : Mem) (tmp_elem : Ptr),
      find_loop_at object fuel m tmp_elem = (m, find_loop m object fuel tmp_elem) := by
  intro fuel
  induction fuel with
  | zero => intro m tmp_elem; rfl
  | succ k ih =>
    intro m tmp_elem
    by_cases h0 : tmp_elem = 0
    · simp [find_loop_at, find_loop, h0]
    · cases he : loadElement m tmp_elem with
      | error f => simp [find_loop_at, find_loop, h0, loadElement_at, he]
      | ok e =>
        by_cases ho : e.object = object
        · simp [find_loop_at, find_loop, h0, loadElement_at, he, ho]
        · simp [find_loop_at, find_loop, h0, loadElement_at, he, ho, ih]

theorem find_prior_loop_at_eq (object : Ptr) :
    ∀ (fuel : Nat) (m : Mem) (last tmp_elem : Ptr),
      find_prior_loop_at object fuel m last tmp_elem =
        (m, find_prior_loop m object fuel last tmp_elem) := by
  intro fuel
  induction fuel with
  | zero => intro m last tmp_elem; rfl
  | succ k ih =>
    intro m last tmp_elem
    by_cases h0 : tmp_elem = 0
    · simp [find_prior_loop_at, find_prior_loop, h0]
    · cases he : loadElement m tmp_elem with
      | error f => simp [find_prior_loop_at, find_prior_loop, h0, loadElement_at, he]
      | ok e =>
        by_cases ho : e.object = object
        · simp [find_prior_loop_at, find_prior_loop, h0, loadElement_at, he, ho]
        · simp [find_prior_loop_at, find_prior_loop, h0, loadElement_at, he, ho, ih]

/-- The function `find` stores nothing: it leaves the memory it was given, and
its outcome is that of `find`. -/
theorem find_at_eq (fuel : Nat) (m : Mem) (set v : Ptr) :
    find_at fuel m set v = (m, find fuel m set v) := by
  unfold find_at find
  by_cases hs : set = 0
  · simp [hs]
  · by_cases hv : v = 0
    · simp [hs, hv]
    · cases hl : loadSet m set with
      | error f => simp [hs, hv, loadSet_at, hl]
      | ok s =>
        cases hloop : find_loop m v fuel s.head with
        | error f => simp [hs, hv, loadSet_at, hl, find_loop_at_eq, hloop]
        | ok t =>
          by_cases ht : t = 0
          · simp [hs, hv, loadSet_at, hl, find_loop_at_eq, hloop, ht]
          · cases he : loadElement m t with
            | error f =>
              simp [hs, hv, loadSet_at, hl, find_loop_at_eq, hloop, ht, loadElement_at, he]
            | ok e =>
              by_cases ho : e.object = 0
              · simp [hs, hv, loadSet_at, hl, find_loop_at_eq, hloop, ht, loadElement_at,
                  he, ho]
              · simp [hs, hv, loadSet_at, hl, find_loop_at_eq, hloop, ht, loadElement_at,
                  he, ho]

/-- The function `find_element` stores nothing. -/
theorem find_element_at_eq (fuel : Nat) (m : Mem) (set v : Ptr) :
    find_element_at fuel m set v = (m, find_element fuel m set v) := by
  unfold find_element_at find_element
  by_cases hs : set = 0
  · simp [hs]
  · by_cases hv : v = 0
    · simp [hs, hv]
    · cases hl : loadSet m set with
      | error f => simp [hs, hv, loadSet_at, hl]
      | ok s =>
        cases hloop : find_loop m v fuel s.head with
        | error f => simp [hs, hv, loadSet_at, hl, find_loop_at_eq, hloop]
        | ok t =>
          by_cases ht : t = 0
          · simp [hs, hv, loadSet_at, hl, find_loop_at_eq, hloop, ht]
          · cases he : loadElement m t with
            | error f =>
              simp [hs, hv, loadSet_at, hl, find_loop_at_eq, hloop, ht, loadElement_at, he]
            | ok e =>
              by_cases ho : e.object = v
              · simp [hs, hv, loadSet_at, hl, find_loop_at_eq, hloop, ht, loadElement_at,
                  he, ho]
              · simp [hs, hv, loadSet_at, hl, find_loop_at_eq, hloop, ht, loadElement_at,
                  he, ho]

/-- The function `find_prior_element` stores nothing. -/
theorem find_prior_element_at_eq (fuel : Nat) (m : Mem) (set v : Ptr) :
    find_prior_element_at fuel m set v = (m, find_prior_element fuel m set v) := by
  unfold find_prior_element_at find_prior_element
  by_cases hs : set = 0
  · simp [hs]
  · by_cases hv : v = 0
    · simp [hs, hv]
    · cases hl : loadSet m set with
      | error f => simp [hs, hv, loadSet_at, hl]
      | ok s =>
        cases hloop : find_prior_loop m v fuel 0 s.head with
        | error f => simp [hs, hv, loadSet_at, hl, find_prior_loop_at_eq, hloop]
        | ok r =>
          obtain ⟨last, t⟩ := r
          by_cases ht : t = 0
          · simp [hs, hv, loadSet_at, hl, find_prior_loop_at_eq, hloop, ht]
          · simp [hs, hv, loadSet_at, hl, find_prior_loop_at_eq, hloop, ht]

/-- The function `contains` stores nothing. -/
theorem contains_at_eq (fuel : Nat) (m : Mem) (set v : Ptr) :
    contains_at fuel m set v = (m, contains fuel m set v) := by
  unfold contains_at contains
  rw [find_at_eq]
  cases find fuel m set v <;> rfl

/-- The function `count` stores nothing. -/
theorem count_at_eq (m : Mem) (set : Ptr) : count_at m set = (m, count m set) := by
  unfold count_at count
  by_cases hs : set = 0
  · simp [hs]
  · cases hl : loadSet m set with
    | error f => simp [hs, loadSet_at, hl]
    | ok s => simp [hs, loadSet_at, hl]

/-- Claim C20: the queries `find`, `contains`, `count`, `find_element`,
`find_prior_element` and `differ` are read-only.  In state-passing form, where
every statement hands on the memory it leaves, each of them ends, for every
memory and every argument, with the memory it was given (so `count` and `head`
of every Set and the stored reference and `next` link of every Element are the
same after the call as before it), with the outcome of the function proper,
and the same query called again right away ends the same way with the same
result. -/
theorem C20_queries_read_only (fuel : Nat) (m : Mem) (set v a b : Ptr) :
    ((find_at fuel m set v).1 = m ∧ (find_at fuel m set v).2 = find fuel m set v ∧
      find_at fuel (find_at fuel m set v).1 set v = find_at fuel m set v) ∧
    ((contains_at fuel m set v).1 = m ∧
      (contains_at fuel m set v).2 = contains fuel m set v ∧
      contains_at fuel (contains_at fuel m set v).1 set v = contains_at fuel m set v) ∧
    ((count_at m set).1 = m ∧ (count_at m set).2 = count m set ∧
      count_at (count_at m set).1 set = count_at m set) ∧
    ((find_element_at fuel m set v).1 = m ∧
      (find_element_at fuel m set v).2 = find_element fuel m set v ∧
      find_element_at fuel (find_element_at fuel m set v).1 set v =
        find_element_at fuel m set v) ∧
    ((find_prior_element_at fuel m set v).1 = m ∧
      (find_prior_element_at fuel m set v).2 = find_prior_element fuel m set v ∧
      find_prior_element_at fuel (find_prior_element_at fuel m set v).1 set v =
        find_prior_element_at fuel m set v) ∧
    ((differ_at m a b).1 = m ∧ (differ_at m a b).2 = differ a b ∧
      differ_at (differ_at m a b).1 a b = differ_at m a b) := by
  refine ⟨?_, ?_, ?_, ?_, ?_, ⟨rfl, rfl, rfl⟩⟩
  · rw [find_at_eq]
    exact ⟨rfl, rfl, find_at_eq fuel m set v⟩
  · rw [contains_at_eq]
    exact ⟨rfl, rfl, contains_at_eq fuel m set v⟩
  · rw [count_at_eq]
    exact ⟨rfl, rfl, count_at_eq m set⟩
  · rw [find_element_at_eq]
    exact ⟨rfl, rfl, find_element_at_eq fuel m set v⟩
  · rw [find_prior_element_at_eq]
    exact ⟨rfl, rfl, find_prior_element_at_eq fuel m set v⟩

end ListSet
